import Mathlib

/-!
CardGuard: the validation pipeline of `src/src/validator.cpp`

A shallow embedding of the card-number checker and the properties its
specification states about it.

Conventions of the embedding
* `std::string` is a `List Char`; a string literal is written `"...".toList`.
  A `char` is read as a `Char`; the code only ever compares characters with
  each other and with the ASCII digits, and subtracts `'0'` from them.
* `size_t` is `Nat`; `int` is a 32-bit two's complement integer, held in an
  `Int`.  The two places where a long string takes an `int` out of its range
  are modelled with their wrap-around, `wrap_int`: the accumulator `int sum`
  of `luhn_check` (its digit total passes `INT_MAX` from 238609295 digits on)
  and the conversion `static_cast<int>(normalized.size())` of `validate` (from
  `2^31` digits on).  The other `int`s (a digit value, a two- or four-digit
  prefix, `repeat_count`, the counts of the frequency map) are bounded by 9999
  or by the string size and are read as exact integers.
* `double` is read over the reals (`ℝ`), `std::log2` as `Real.logb 2`.
* An operation that can raise or is undefined on some arguments
  (`std::string::substr`, `operator[]`, `std::stoi`) returns an `Option`;
  `none` stands for "raised".  A loop is a function recursive on a fuel
  counter; running out of fuel is `none` as well, and the callers pass the
  string size, which the theorems prove to be enough.
* The two readings of the clock in `validate` are arguments of `validate`.
* Every definition but the real-valued ones (`calculate_entropy`,
  `shannon_entropy`, the entropy fields of `validate`) is computable; closed
  instances of all of them, `validate` included, are evaluated by `decide`.
-/

set_option autoImplicit false

namespace cardguard

/-! ## Data model (`src/include/card_validator.h`) -/

/-- Issuer types based on BIN patterns. -/
inductive Issuer where
  | UNKNOWN
  | VISA
  | MASTERCARD
  | AMEX
  | DISCOVER
  deriving DecidableEq, Repr

/-- Result of a single check. -/
structure CheckResult where
  passed : Bool
  message : List Char

/-- Full validation result. -/
structure ValidationResult where
  valid : Bool
  high_confidence : Bool
  normalized : List Char
  length : Int
  length_check : CheckResult
  issuer : Issuer
  issuer_name : List Char
  luhn_check : CheckResult
  entropy : ℝ
  entropy_passed : Bool
  entropy_check : CheckResult
  repetition_check : CheckResult
  ns_elapsed : Int

/-- The constant `ENTROPY_THRESHOLD = 3.5`. -/
noncomputable def ENTROPY_THRESHOLD : ℝ := 3.5

/-! ## `normalize_input` (validator.cpp 10-18) -/

/-- The loop `for (char c : input) if (c >= '0' && c <= '9') result += c;`
started from the empty `result`. -/
def normalize_input (input : List Char) : List Char :=
  input.foldl (fun result c => if '0' ≤ c ∧ c ≤ '9' then result ++ [c] else result) []

/-! ## `luhn_check` (validator.cpp 20-37) -/

/-- What a 32-bit `int` holds when the exact result of an operation is `x`:
`x` reduced modulo `2^32` into `[-2^31, 2^31)`. -/
def wrap_int (x : Int) : Int := (x + 2147483648) % 4294967296 - 2147483648

/-- The conversion `static_cast<int>(n)` of a `size_t`. -/
def static_cast_int (n : Nat) : Int := wrap_int (n : Int)

/-- One pass of the body of the loop of `luhn_check` on the state
`(sum, alternate)`, at the character `c` the reverse iterator points to;
`sum += n` is an addition of `int`s. -/
def luhn_step (st : Int × Bool) (c : Char) : Int × Bool :=
  let sum := st.1
  let alternate := st.2
  let n : Int := (c.toNat : Int) - ('0'.toNat : Int)
  let n : Int := if alternate then (if n * 2 > 9 then n * 2 - 9 else n * 2) else n
  (wrap_int (sum + n), !alternate)

/-- The function `luhn_check`: false on the empty string, otherwise the loop
from `rbegin()` to `rend()` and the test `(sum % 10) == 0` (`%` of C++
truncates, as `Int.tmod`). -/
def luhn_check (digits : List Char) : Bool :=
  if digits.isEmpty then false
  else
    let st := digits.reverse.foldl luhn_step (0, false)
    decide (Int.tmod st.1 10 = 0)

/-! ## Library operations the code calls -/

/-- The call `s.substr(pos, len)`: the characters `[pos, min(pos + len, size))`
of `s`; raises `std::out_of_range` (here `none`) when `pos > size`. -/
def substr (s : List Char) (pos len : Nat) : Option (List Char) :=
  if pos > s.length then none else some ((s.drop pos).take len)

/-- The test `isspace` of the C locale, which `std::stoi` uses to skip leading
blanks. -/
def isspace (c : Char) : Bool :=
  c = ' ' || c = '\t' || c = '\n' || c = '\x0b' || c = '\x0c' || c = '\r'

/-- The call `std::stoi(s)` (base 10): leading blanks are skipped, an optional
sign is read, then the longest run of decimal digits; it raises
`std::invalid_argument` when there is no digit to read and `std::out_of_range`
when the value does not fit an `int` (both `none`). -/
def stoi (s : List Char) : Option Int :=
  let s := s.dropWhile isspace
  let neg : Bool := s.head? = some '-'
  let s := if s.head? = some '-' ∨ s.head? = some '+' then s.drop 1 else s
  let ds := s.takeWhile (fun c => decide ('0' ≤ c ∧ c ≤ '9'))
  if ds.isEmpty then none
  else
    let v : Int := ds.foldl (fun acc c => 10 * acc + ((c.toNat : Int) - ('0'.toNat : Int))) 0
    let v : Int := if neg then -v else v
    if v < -2147483648 ∨ v > 2147483647 then none else some v

/-- The call `std::to_string(n)` on a `size_t`: the decimal numeral of `n`. -/
def to_string (n : Nat) : List Char := (Nat.repr n).toList

/-- What `operator<<` writes for a `double` under `std::fixed` with precision
2: the value rounded to the nearest hundredth (a tie to the even one), as sign,
integer part, point and two decimals. -/
noncomputable def ostream_fixed2 (x : ℝ) : List Char :=
  let f : Int := Int.floor (|x| * 100)
  let r : ℝ := |x| * 100 - f
  let q : Nat := (if r < 1 / 2 then f else if r > 1 / 2 then f + 1
                  else if f % 2 = 0 then f else f + 1).toNat
  (if x < 0 then ['-'] else []) ++ to_string (q / 100) ++ ['.'] ++
    to_string (q % 100 / 10) ++ to_string (q % 10)

/-! ## `calculate_entropy` (validator.cpp 39-60) -/

/-- The statement `freq[c]++` on a `std::map<char, int>`, kept as the list of
its `(key, count)` entries in increasing key order: the entry of `c` is
incremented, or inserted with count 1 when `c` is not yet a key. -/
def freq_increment : List (Char × Int) → Char → List (Char × Int)
  | [], c => [(c, 1)]
  | (k, v) :: rest, c =>
    if c = k then (k, v + 1) :: rest
    else if c < k then (c, 1) :: (k, v) :: rest
    else (k, v) :: freq_increment rest c

/-- The function `calculate_entropy`: 0 on the empty string; otherwise the
frequency map of the digit characters is built and `p_i * log2(p_i)` is
subtracted for every entry with `p_i = count / size > 0`. -/
noncomputable def calculate_entropy (digits : List Char) : ℝ :=
  if digits.isEmpty then 0
  else
    let freq : List (Char × Int) :=
      digits.foldl (fun freq c => if '0' ≤ c ∧ c ≤ '9' then freq_increment freq c else freq) []
    let len : ℝ := (digits.length : ℝ)
    freq.foldl (fun entropy p =>
      let p_i : ℝ := (p.2 : ℝ) / len
      if p_i > 0 then entropy - p_i * Real.logb 2 p_i else entropy) 0

/-! ## `repetition_check` (validator.cpp 62-104) -/

/-- The loop of lines 68-73 from index `i` on: the final value of `all_same`
(`false` as soon as some `digits[i] != first`, where the loop breaks). -/
def all_same_loop (digits : List Char) (first : Char) : Nat → Nat → Option Bool
  | 0, i => if i < digits.length then none else some true
  | fuel + 1, i =>
    if i < digits.length then
      match digits[i]? with
      | none => none
      | some c => if c ≠ first then some false else all_same_loop digits first fuel (i + 1)
    else some true

/-- The loop of lines 80-86 from offset `i` on with the current
`repeat_count`: the final value of `repeat_count` (the loop breaks at the first
block that differs from `block1`). -/
def block_loop (digits block1 : List Char) : Nat → Nat → Int → Option Int
  | 0, i, repeat_count => if i + 4 ≤ digits.length then none else some repeat_count
  | fuel + 1, i, repeat_count =>
    if i + 4 ≤ digits.length then
      match substr digits i 4 with
      | none => none
      | some b =>
        if b = block1 then block_loop digits block1 fuel (i + 4) (repeat_count + 1)
        else some repeat_count
    else some repeat_count

/-- The loop of lines 92-100 from index `i` on: the final value of
`is_sequence` (`false` as soon as some digit is not the previous one plus 1
modulo 10, where the loop breaks). -/
def sequence_loop (digits : List Char) : Nat → Nat → Option Bool
  | 0, i => if i < digits.length then none else some true
  | fuel + 1, i =>
    if i < digits.length then
      match digits[i - 1]?, digits[i]? with
      | some p, some c =>
        let prev : Int := (p.toNat : Int) - ('0'.toNat : Int)
        let curr : Int := (c.toNat : Int) - ('0'.toNat : Int)
        let expected : Int := Int.tmod (prev + 1) 10
        if curr ≠ expected then some false else sequence_loop digits fuel (i + 1)
      | _, _ => none
    else some true

/-- The function `repetition_check`; `some true` is "passed". -/
def repetition_check (digits : List Char) : Option Bool :=
  if digits.length < 4 then some true
  else
    match digits[0]? with
    | none => none
    | some first =>
      match all_same_loop digits first digits.length 1 with
      | none => none
      | some all_same =>
        if all_same then some false
        else
          let blocks : Option Bool :=
            if digits.length ≥ 8 then
              match substr digits 0 4 with
              | none => none
              | some block1 =>
                match block_loop digits block1 digits.length 4 1 with
                | none => none
                | some repeat_count => some (decide (repeat_count ≥ 4))
            else some false
          match blocks with
          | none => none
          | some true => some false
          | some false =>
            match sequence_loop digits digits.length 1 with
            | none => none
            | some is_sequence => if is_sequence then some false else some true

/-! ## `detect_issuer`, `issuer_to_string` (validator.cpp 106-131) -/

/-- The function `detect_issuer`.  The operators `||` and `&&` of line 116-117
evaluate their right operand only when the left one does not decide, so the
two `substr(0, 6)` are reached only when `size >= 6`. -/
def detect_issuer (digits : List Char) : Option Issuer :=
  if digits.length < 2 then some Issuer.UNKNOWN
  else
    match digits[0]?,
          (if digits.length ≥ 2 then (substr digits 0 2).bind stoi else some 0),
          (if digits.length ≥ 4 then (substr digits 0 4).bind stoi else some 0) with
    | some c0, some first_two, some first_four =>
      let first : Int := (c0.toNat : Int) - ('0'.toNat : Int)
      if first = 4 then some Issuer.VISA
      else if first_two ≥ 51 ∧ first_two ≤ 55 then some Issuer.MASTERCARD
      else if first_two = 34 ∨ first_two = 37 then some Issuer.AMEX
      else if first_four = 6011 ∨ first_two = 65 then some Issuer.DISCOVER
      else if digits.length ≥ 6 then
        match substr digits 0 6 with
        | none => none
        | some lo =>
          if lo ≥ "622126".toList then
            match substr digits 0 6 with
            | none => none
            | some hi =>
              if hi ≤ "622925".toList then some Issuer.DISCOVER else some Issuer.UNKNOWN
          else some Issuer.UNKNOWN
      else some Issuer.UNKNOWN
    | _, _, _ => none

/-- The function `issuer_to_string`. -/
def issuer_to_string : Issuer → List Char
  | Issuer.VISA => "VISA".toList
  | Issuer.MASTERCARD => "MASTERCARD".toList
  | Issuer.AMEX => "AMEX".toList
  | Issuer.DISCOVER => "DISCOVER".toList
  | _ => "UNKNOWN".toList

/-! ## `validate` (validator.cpp 133-185) -/

/-- The value-initialised `ValidationResult result = {}`: every flag false,
every number zero, every string empty, the issuer the first enumerator. -/
noncomputable def value_initialized : ValidationResult where
  valid := false
  high_confidence := false
  normalized := []
  length := 0
  length_check := ⟨false, []⟩
  issuer := Issuer.UNKNOWN
  issuer_name := []
  luhn_check := ⟨false, []⟩
  entropy := 0
  entropy_passed := false
  entropy_check := ⟨false, []⟩
  repetition_check := ⟨false, []⟩
  ns_elapsed := 0

/-- The function `validate`.  `start` and `stop` are the readings of
`high_resolution_clock::now()` at entry and before the return, in
nanoseconds. -/
noncomputable def validate (input : List Char) (start stop : Int) : Option ValidationResult :=
  let result : ValidationResult := value_initialized
  let result : ValidationResult := { result with valid := false }
  let result : ValidationResult := { result with high_confidence := false }
  let result : ValidationResult := { result with entropy := 0 }
  let result : ValidationResult := { result with entropy_passed := false }
  let result : ValidationResult := { result with issuer := Issuer.UNKNOWN }
  let normalized := normalize_input input
  let result : ValidationResult := { result with normalized := normalized }
  let result : ValidationResult := { result with length := static_cast_int normalized.length }
  -- Length check: standard cards are 13-19 digits
  if normalized.length < 13 ∨ normalized.length > 19 then
    let result : ValidationResult := { result with
      length_check := ⟨false, "Length must be 13–19 digits".toList⟩ }
    let result : ValidationResult := { result with ns_elapsed := stop - start }
    some result
  else
    let result : ValidationResult := { result with
      length_check := ⟨true, "Length OK (".toList ++ to_string normalized.length ++
        " digits)".toList⟩ }
    -- Issuer detection
    match detect_issuer normalized with
    | none => none
    | some issuer =>
      let result : ValidationResult := { result with issuer := issuer }
      let result : ValidationResult := { result with issuer_name := issuer_to_string result.issuer }
      -- Luhn check
      let luhn_ok := luhn_check normalized
      let result : ValidationResult := { result with
        luhn_check := ⟨luhn_ok, if luhn_ok then "PASS".toList else "FAIL".toList⟩ }
      let result : ValidationResult := { result with valid := luhn_ok }
      -- Entropy
      let result : ValidationResult := { result with entropy := calculate_entropy normalized }
      let result : ValidationResult := { result with
        entropy_passed := decide (result.entropy ≥ ENTROPY_THRESHOLD) }
      let entropy_msg : List Char :=
        ostream_fixed2 result.entropy ++ " bits/digit (threshold: ".toList ++
          ostream_fixed2 ENTROPY_THRESHOLD ++ ") ".toList ++
          (if result.entropy_passed then "PASS".toList else "FAIL".toList)
      let result : ValidationResult := { result with entropy_check := ⟨result.entropy_passed, entropy_msg⟩ }
      -- Repetition
      match repetition_check normalized with
      | none => none
      | some repetition_ok =>
        let result : ValidationResult := { result with
          repetition_check := ⟨repetition_ok,
            if repetition_ok then "PASS".toList else "FAIL".toList⟩ }
        -- High confidence = valid + entropy pass + repetition pass
        let result : ValidationResult := { result with
          high_confidence := result.valid && result.entropy_passed && repetition_ok }
        let result : ValidationResult := { result with ns_elapsed := stop - start }
        some result

/-! ## The specification's own wording, for comparison with the code -/

/-- A digit string: every character lies in `'0'..'9'`. -/
def digit_string (d : List Char) : Prop := ∀ c ∈ d, '0' ≤ c ∧ c ≤ '9'

instance (d : List Char) : Decidable (digit_string d) := by
  unfold digit_string; infer_instance

/-- The number of digit characters of a text. -/
def digit_count (input : List Char) : Nat :=
  input.countP (fun c => decide ('0' ≤ c ∧ c ≤ '9'))

/-- The decimal value of a digit character. -/
def digit_value (c : Char) : Nat := c.toNat - '0'.toNat

/-- Luhn, in the specification's words: what the digit `digit` at position
`pos` (counted from the rightmost digit, position 0) adds to the total: the
digit itself at an even position, the doubled digit (minus 9 when the doubled
value exceeds 9) at an odd position. -/
def luhn_term (pos digit : Nat) : Nat :=
  if pos % 2 = 0 then digit
  else if 2 * digit > 9 then 2 * digit - 9 else 2 * digit

/-- Luhn, in the specification's words: the sum of `luhn_term` over the digits
of `d`, positions counted from the right. -/
def luhn_total (d : List Char) : Nat :=
  (d.reverse.enum.map (fun p => luhn_term p.1 (digit_value p.2))).sum

/-- The number a string of digits denotes in base 10. -/
def decimal_value (l : List Char) : Nat :=
  l.foldl (fun acc c => 10 * acc + digit_value c) 0

/-- The issuer rules in the specification's words, as an ordered table where
the first match wins: Unknown below 2 digits; Visa when the first digit is 4;
Mastercard when the first two digits are in 51..55; Amex when they are 34 or
37; Discover when the first four digits are 6011, or the first two are 65, or
there are at least 6 digits and the 6-digit prefix lies between "622126" and
"622925" inclusive in dictionary order; otherwise Unknown. -/
def issuer_rule_table (d : List Char) : Issuer :=
  if d.length < 2 then Issuer.UNKNOWN
  else if d.head? = some '4' then Issuer.VISA
  else if 51 ≤ decimal_value (d.take 2) ∧ decimal_value (d.take 2) ≤ 55 then Issuer.MASTERCARD
  else if decimal_value (d.take 2) = 34 ∨ decimal_value (d.take 2) = 37 then Issuer.AMEX
  else if d.take 4 = "6011".toList then Issuer.DISCOVER
  else if d.take 2 = "65".toList then Issuer.DISCOVER
  else if 6 ≤ d.length ∧ "622126".toList ≤ d.take 6 ∧ d.take 6 ≤ "622925".toList then
    Issuer.DISCOVER
  else Issuer.UNKNOWN

/-- Repetition rule 1 in the specification's words: every digit is identical
(to the first one). -/
def all_identical (d : List Char) : Prop := ∀ c ∈ d, some c = d.head?

/-- Repetition rule 2 in the specification's words: at least 16 digits, and
the blocks at positions [4,8), [8,12) and [12,16) all equal the block
[0,4). -/
def first_block_repeats (d : List Char) : Prop :=
  16 ≤ d.length ∧ (d.drop 4).take 4 = d.take 4 ∧ (d.drop 8).take 4 = d.take 4
    ∧ (d.drop 12).take 4 = d.take 4

/-- Repetition rule 3 in the specification's words: every digit after the
first equals (previous digit + 1) mod 10. -/
def ascending_cyclic (d : List Char) : Prop :=
  ∀ i < d.length - 1,
    digit_value (d.getD (i + 1) '0') = (digit_value (d.getD i '0') + 1) % 10

instance (d : List Char) : Decidable (all_identical d) := by
  unfold all_identical; infer_instance

instance (d : List Char) : Decidable (first_block_repeats d) := by
  unfold first_block_repeats; infer_instance

instance (d : List Char) : Decidable (ascending_cyclic d) := by
  unfold ascending_cyclic; infer_instance

/-- The variant of `detect_issuer` the specification allows: the Discover
range test of line 117 is made on the integer `std::stoi(digits.substr(0, 6))`,
`622126 <= value && value <= 622925`, instead of on the strings; everything
else is `detect_issuer`. -/
def detect_issuer_integer_range (digits : List Char) : Option Issuer :=
  if digits.length < 2 then some Issuer.UNKNOWN
  else
    match digits[0]?,
          (if digits.length ≥ 2 then (substr digits 0 2).bind stoi else some 0),
          (if digits.length ≥ 4 then (substr digits 0 4).bind stoi else some 0) with
    | some c0, some first_two, some first_four =>
      let first : Int := (c0.toNat : Int) - ('0'.toNat : Int)
      if first = 4 then some Issuer.VISA
      else if first_two ≥ 51 ∧ first_two ≤ 55 then some Issuer.MASTERCARD
      else if first_two = 34 ∨ first_two = 37 then some Issuer.AMEX
      else if first_four = 6011 ∨ first_two = 65 then some Issuer.DISCOVER
      else if digits.length ≥ 6 then
        match (substr digits 0 6).bind stoi with
        | none => none
        | some first_six =>
          if first_six ≥ 622126 ∧ first_six ≤ 622925 then some Issuer.DISCOVER
          else some Issuer.UNKNOWN
      else some Issuer.UNKNOWN
    | _, _, _ => none

/-- Entropy in the specification's words: minus the sum, over the digits
present in `d`, of `p * log2(p)` with `p = count / length`. -/
noncomputable def shannon_entropy (d : List Char) : ℝ :=
  - Finset.sum d.toFinset (fun c =>
      ((d.count c : ℝ) / (d.length : ℝ)) * Real.logb 2 ((d.count c : ℝ) / (d.length : ℝ)))

/-- The verdict line `main` prints for a result (main.cpp 34-42). -/
def main_verdict (r : ValidationResult) : List Char :=
  if r.valid then
    if r.high_confidence then "[RESULT] Card number is VALID\n".toList
    else "[RESULT] Card number is VALID (low confidence)\n".toList
  else "[RESULT] Card number is INVALID\n".toList

/-! ## Lemmas on characters and `normalize_input` -/

theorem digit_toNat_bounds {c : Char} (h : '0' ≤ c ∧ c ≤ '9') :
    48 ≤ c.toNat ∧ c.toNat ≤ 57 := by
  obtain ⟨h0, h9⟩ := h
  rw [Char.le_def] at h0 h9
  exact ⟨h0, h9⟩

theorem normalize_fold_append (input acc : List Char) :
    input.foldl (fun result c => if '0' ≤ c ∧ c ≤ '9' then result ++ [c] else result) acc
      = acc ++ input.filter (fun c => decide ('0' ≤ c ∧ c ≤ '9')) := by
  induction input generalizing acc with
  | nil => simp
  | cons c rest ih =>
    rw [List.foldl_cons, ih]
    by_cases hc : '0' ≤ c ∧ c ≤ '9'
    · simp [hc, List.filter_cons]
    · simp [hc, List.filter_cons]

theorem normalize_input_eq_filter (input : List Char) :
    normalize_input input = input.filter (fun c => decide ('0' ≤ c ∧ c ≤ '9')) := by
  unfold normalize_input
  rw [normalize_fold_append]
  simp

theorem normalize_input_digit_string (input : List Char) :
    digit_string (normalize_input input) := by
  intro c hc
  rw [normalize_input_eq_filter, List.mem_filter] at hc
  simpa using hc.2

theorem normalize_input_of_digit_string {x : List Char} (hx : digit_string x) :
    normalize_input x = x := by
  rw [normalize_input_eq_filter, List.filter_eq_self]
  intro c hc
  simpa using hx c hc

/-! ## Lemmas on `luhn_check` -/

theorem digit_value_cast {c : Char} (h : '0' ≤ c ∧ c ≤ '9') :
    ((c.toNat : Int) - ('0'.toNat : Int)) = (digit_value c : Int) ∧ digit_value c ≤ 9 := by
  have hb := digit_toNat_bounds h
  have h0 : '0'.toNat = 48 := by decide
  unfold digit_value
  rw [h0]
  omega

theorem wrap_int_add (x y : Int) : wrap_int (wrap_int x + y) = wrap_int (x + y) := by
  unfold wrap_int
  omega

theorem wrap_int_of_small (x : Int) (h0 : -2147483648 ≤ x) (h1 : x ≤ 2147483647) :
    wrap_int x = x := by
  unfold wrap_int
  omega

theorem wrap_int_range (x : Int) : -2147483648 ≤ wrap_int x ∧ wrap_int x ≤ 2147483647 := by
  unfold wrap_int
  omega

theorem wrap_int_near (w δ : Int) (hw0 : -2147483648 ≤ w) (hw1 : w ≤ 2147483647)
    (hlo : -9 ≤ δ) (hhi : δ ≤ 9) :
    wrap_int (w + δ)
      = if w + δ < -2147483648 then w + δ + 4294967296
        else if w + δ > 2147483647 then w + δ - 4294967296 else w + δ := by
  unfold wrap_int
  split_ifs <;> omega

theorem wrap_int_dvd_shift (t δ : Int) (hlo : -9 ≤ δ) (hhi : δ ≤ 9)
    (h1 : 10 ∣ wrap_int t) (h2 : 10 ∣ wrap_int (t + δ)) : δ = 0 := by
  obtain ⟨hw0, hw1⟩ := wrap_int_range t
  rw [← wrap_int_add, wrap_int_near _ _ hw0 hw1 hlo hhi] at h2
  generalize wrap_int t = w at h1 h2 hw0 hw1
  obtain ⟨m, hm⟩ := h1
  subst hm
  split_ifs at h2 with c1 c2
  · obtain ⟨k, hk⟩ := h2
    omega
  · obtain ⟨k, hk⟩ := h2
    omega
  · obtain ⟨k, hk⟩ := h2
    omega

theorem luhn_step_digit (sum : Int) (pos : Nat) {c : Char} (h : '0' ≤ c ∧ c ≤ '9') :
    luhn_step (sum, decide (pos % 2 = 1)) c
      = (wrap_int (sum + (luhn_term pos (digit_value c) : Nat)),
         decide ((pos + 1) % 2 = 1)) := by
  obtain ⟨hv, h9⟩ := digit_value_cast h
  unfold luhn_step luhn_term
  simp only [hv]
  rcases Nat.mod_two_eq_zero_or_one pos with hp | hp
  · have hp1 : (pos + 1) % 2 = 1 := by omega
    simp [hp, hp1]
  · have hp1 : ¬ (pos + 1) % 2 = 1 := by omega
    simp only [hp, hp1, decide_True, decide_False, if_true, Bool.not_true, one_ne_zero, if_false]
    congr 2
    split_ifs <;> omega

theorem luhn_fold_digits (l : List Char) (hl : digit_string l) (sum : Int) (pos : Nat) :
    l.foldl luhn_step (wrap_int sum, decide (pos % 2 = 1))
      = (wrap_int (sum
          + (((l.enumFrom pos).map (fun p => luhn_term p.1 (digit_value p.2))).sum : Nat)),
         decide ((pos + l.length) % 2 = 1)) := by
  induction l generalizing sum pos with
  | nil => simp
  | cons c rest ih =>
    have hc : '0' ≤ c ∧ c ≤ '9' := hl c (List.mem_cons_self _ _)
    have hrest : digit_string rest := fun x hx => hl x (List.mem_cons_of_mem _ hx)
    rw [List.foldl_cons, luhn_step_digit (wrap_int sum) pos hc, wrap_int_add, ih hrest]
    simp only [List.enumFrom_cons, List.map_cons, List.sum_cons, List.length_cons]
    congr 1
    · congr 1; push_cast; ring
    · congr 2; omega

theorem luhn_check_eq_wrapped (d : List Char) (hd : digit_string d) :
    luhn_check d = (!d.isEmpty && decide (10 ∣ wrap_int (luhn_total d : Int))) := by
  unfold luhn_check
  cases d with
  | nil => simp
  | cons c rest =>
    have hrev : digit_string (c :: rest).reverse := fun x hx => hd x (List.mem_reverse.mp hx)
    have h := luhn_fold_digits (c :: rest).reverse hrev 0 0
    have h0 : wrap_int 0 = 0 := by decide
    simp only [Nat.zero_mod, zero_ne_one, decide_False, zero_add, h0] at h
    simp only [List.isEmpty_cons, Bool.false_eq_true, if_false, h, Bool.not_false, Bool.true_and]
    unfold luhn_total List.enum
    simp only [Int.dvd_iff_tmod_eq_zero]

theorem luhn_term_le_nine (pos : Nat) (c : Char) (h : '0' ≤ c ∧ c ≤ '9') :
    luhn_term pos (digit_value c) ≤ 9 := by
  have h9 := (digit_value_cast h).2
  unfold luhn_term
  split_ifs <;> omega

theorem luhn_sum_le (l : List Char) (hl : digit_string l) (pos : Nat) :
    ((l.enumFrom pos).map (fun p => luhn_term p.1 (digit_value p.2))).sum ≤ 9 * l.length := by
  induction l generalizing pos with
  | nil => simp
  | cons c rest ih =>
    have hc : '0' ≤ c ∧ c ≤ '9' := hl c (List.mem_cons_self _ _)
    have hrest : digit_string rest := fun x hx => hl x (List.mem_cons_of_mem _ hx)
    have h1 := luhn_term_le_nine pos c hc
    have h2 := ih hrest (pos + 1)
    simp only [List.enumFrom_cons, List.map_cons, List.sum_cons, List.length_cons]
    omega

theorem luhn_total_le (d : List Char) (hd : digit_string d) : luhn_total d ≤ 9 * d.length := by
  have hrev : digit_string d.reverse := fun x hx => hd x (List.mem_reverse.mp hx)
  have h := luhn_sum_le d.reverse hrev 0
  rw [List.length_reverse] at h
  exact h

theorem luhn_check_eq_total (d : List Char) (hd : digit_string d)
    (hfit : luhn_total d ≤ 2147483647) :
    luhn_check d = (!d.isEmpty && decide (luhn_total d % 10 = 0)) := by
  rw [luhn_check_eq_wrapped d hd, wrap_int_of_small _ (by omega) (by omega)]
  congr 2
  apply propext
  omega

theorem luhn_sum_nines (n pos : Nat) :
    (((List.replicate n '9').enumFrom pos).map
      (fun p => luhn_term p.1 (digit_value p.2))).sum = 9 * n := by
  induction n generalizing pos with
  | zero => simp
  | succ n ih =>
    have h9 : digit_value '9' = 9 := by decide
    have ht : luhn_term pos 9 = 9 := by
      unfold luhn_term
      split_ifs <;> omega
    simp only [List.replicate_succ, List.enumFrom_cons, List.map_cons, List.sum_cons, ih, h9, ht]
    omega

theorem luhn_total_nines (n : Nat) : luhn_total (List.replicate n '9') = 9 * n := by
  unfold luhn_total List.enum
  rw [List.reverse_replicate]
  exact luhn_sum_nines n 0

theorem digit_string_nines (n : Nat) : digit_string (List.replicate n '9') := by
  intro c hc
  rw [List.eq_of_mem_replicate hc]
  decide

/-- C1, as the code behaves: on a digit string of at most 238609294 digits
(the longest a 32-bit total is sure to hold), `luhn_check` is true exactly when
the string is non-empty and the total, over the digits counted from the
rightmost one (position 0), of the digit itself at even positions and of the
doubled digit (minus 9 when the doubled value exceeds 9) at odd positions is
divisible by 10; the empty string fails, `4539148803436467` passes and
`4539148803436468` fails. -/
theorem luhn_check_iff_total (d : List Char) (hd : digit_string d)
    (hlen : d.length ≤ 238609294) :
    (luhn_check d = true ↔ d ≠ [] ∧ 10 ∣ luhn_total d)
    ∧ luhn_check "".toList = false
    ∧ luhn_check "4539148803436467".toList = true
    ∧ luhn_check "4539148803436468".toList = false := by
  refine ⟨?_, by decide, by decide, by decide⟩
  have hfit : luhn_total d ≤ 2147483647 := by
    have := luhn_total_le d hd
    omega
  rw [luhn_check_eq_total d hd hfit]
  cases d with
  | nil => simp
  | cons c rest => simp [Nat.dvd_iff_mod_eq_zero]

theorem luhn_check_iff_total_witness :
    digit_string "79927398713".toList
    ∧ "79927398713".toList.length ≤ 238609294
    ∧ (luhn_check "79927398713".toList = true
        ↔ "79927398713".toList ≠ [] ∧ 10 ∣ luhn_total "79927398713".toList) :=
  ⟨by decide, by decide, (luhn_check_iff_total "79927398713".toList (by decide) (by decide)).1⟩

theorem nines_ne_nil (n : Nat) (hn : 0 < n) : List.replicate n '9' ≠ [] := by
  intro h
  have h' := congrArg List.length h
  rw [List.length_replicate, List.length_nil] at h'
  omega

theorem luhn_check_nines (n : Nat) (hn : 0 < n) :
    luhn_check (List.replicate n '9') = decide (10 ∣ wrap_int ((9 * n : Nat) : Int)) := by
  have hemp : (List.replicate n '9').isEmpty = false := by
    rw [List.isEmpty_eq_false]
    exact nines_ne_nil n hn
  rw [luhn_check_eq_wrapped _ (digit_string_nines n), luhn_total_nines, hemp]
  simp only [Bool.not_false, Bool.true_and]

/-- C1 fails as stated: the string of 238609300 nines is a non-empty digit
string whose total, 2147483700, is divisible by 10, yet the 32-bit `sum` of
`luhn_check` has wrapped to -2147483596 and `luhn_check` returns false. -/
theorem luhn_check_wraps_on_long_string :
    digit_string (List.replicate 238609300 '9')
    ∧ List.replicate 238609300 '9' ≠ []
    ∧ luhn_total (List.replicate 238609300 '9') = 2147483700
    ∧ 10 ∣ luhn_total (List.replicate 238609300 '9')
    ∧ wrap_int 2147483700 = -2147483596
    ∧ luhn_check (List.replicate 238609300 '9') = false := by
  have htot : luhn_total (List.replicate 238609300 '9') = 2147483700 :=
    luhn_total_nines 238609300
  have hdvd : 10 ∣ luhn_total (List.replicate 238609300 '9') := by
    rw [htot]
    exact ⟨214748370, rfl⟩
  have hw : wrap_int 2147483700 = -2147483596 := by
    unfold wrap_int
    norm_num
  have hcheck : luhn_check (List.replicate 238609300 '9') = false := by
    rw [luhn_check_nines 238609300 (by norm_num), decide_eq_false_iff_not]
    have e : ((9 * 238609300 : Nat) : Int) = 2147483700 := by norm_num
    rw [e, hw]
    norm_num
  exact ⟨digit_string_nines _, nines_ne_nil _ (by norm_num), htot, hdvd, hw, hcheck⟩

/-- C7: `normalize_input` returns exactly the subsequence of the characters of
the input that lie in `'0'..'9'`, in their order: the output is a digit
string, it is a subsequence of the input (nothing inserted or reordered), every
digit occurs in it as often as in the input (none dropped) and no other
character occurs, and the empty input gives the empty output. -/
theorem normalize_input_subsequence (input : List Char) :
    normalize_input input = input.filter (fun c => decide ('0' ≤ c ∧ c ≤ '9'))
    ∧ digit_string (normalize_input input)
    ∧ List.Sublist (normalize_input input) input
    ∧ (∀ c : Char, (normalize_input input).count c
        = if '0' ≤ c ∧ c ≤ '9' then input.count c else 0)
    ∧ normalize_input [] = [] := by
  refine ⟨normalize_input_eq_filter input, normalize_input_digit_string input, ?_, ?_, rfl⟩
  · rw [normalize_input_eq_filter]
    exact List.filter_sublist input
  · intro c
    rw [normalize_input_eq_filter]
    by_cases hc : '0' ≤ c ∧ c ≤ '9'
    · rw [if_pos hc]
      exact List.count_filter (by simpa using hc)
    · rw [if_neg hc, List.count_eq_zero, List.mem_filter]
      rintro ⟨_, h⟩
      exact hc (by simpa using h)

/-- C8: `normalize_input` is idempotent, and it leaves a digit-only text
unchanged. -/
theorem normalize_input_idempotent (x : List Char) :
    normalize_input (normalize_input x) = normalize_input x
    ∧ (digit_string x → normalize_input x = x) :=
  ⟨normalize_input_of_digit_string (normalize_input_digit_string x),
   fun hx => normalize_input_of_digit_string hx⟩

theorem normalize_input_idempotent_witness :
    normalize_input (normalize_input "12-3a 4".toList) = normalize_input "12-3a 4".toList
    ∧ digit_string "4539148803436467".toList
    ∧ normalize_input "4539148803436467".toList = "4539148803436467".toList :=
  ⟨(normalize_input_idempotent "12-3a 4".toList).1, by decide,
   (normalize_input_idempotent "4539148803436467".toList).2 (by decide)⟩

/-! ## Lemmas on `stoi` and `detect_issuer` -/

theorem digit_not_space_sign {c : Char} (h : '0' ≤ c ∧ c ≤ '9') :
    isspace c = false ∧ c ≠ '-' ∧ c ≠ '+' := by
  have hb := digit_toNat_bounds h
  refine ⟨?_, ?_, ?_⟩
  · unfold isspace
    simp only [Bool.or_eq_false_iff, decide_eq_false_iff_not]
    refine ⟨⟨⟨⟨⟨?_, ?_⟩, ?_⟩, ?_⟩, ?_⟩, ?_⟩ <;> (rintro rfl; revert hb; decide)
  · rintro rfl; revert hb; decide
  · rintro rfl; revert hb; decide

theorem decimal_fold_cast (l : List Char) (hl : digit_string l) (acc : Nat) :
    l.foldl (fun (a : Int) c => 10 * a + ((c.toNat : Int) - ('0'.toNat : Int))) (acc : Int)
      = ((l.foldl (fun a c => 10 * a + digit_value c) acc : Nat) : Int) := by
  induction l generalizing acc with
  | nil => simp
  | cons c rest ih =>
    have hc : '0' ≤ c ∧ c ≤ '9' := hl c (List.mem_cons_self _ _)
    have hrest : digit_string rest := fun x hx => hl x (List.mem_cons_of_mem _ hx)
    rw [List.foldl_cons, List.foldl_cons, (digit_value_cast hc).1, ← ih hrest]
    push_cast
    rfl

theorem decimal_fold_lt (l : List Char) (hl : digit_string l) (acc : Nat) :
    l.foldl (fun a c => 10 * a + digit_value c) acc < (acc + 1) * 10 ^ l.length := by
  induction l generalizing acc with
  | nil => simp
  | cons c rest ih =>
    have hc : '0' ≤ c ∧ c ≤ '9' := hl c (List.mem_cons_self _ _)
    have hrest : digit_string rest := fun x hx => hl x (List.mem_cons_of_mem _ hx)
    have h9 := (digit_value_cast hc).2
    rw [List.foldl_cons, List.length_cons]
    calc rest.foldl (fun a c => 10 * a + digit_value c) (10 * acc + digit_value c)
        < (10 * acc + digit_value c + 1) * 10 ^ rest.length := ih hrest _
      _ ≤ (10 * (acc + 1)) * 10 ^ rest.length := Nat.mul_le_mul_right _ (by omega)
      _ = (acc + 1) * 10 ^ (rest.length + 1) := by ring

theorem decimal_value_lt (l : List Char) (hl : digit_string l) :
    decimal_value l < 10 ^ l.length := by
  simpa [decimal_value] using decimal_fold_lt l hl 0

theorem takeWhile_digit_string (l : List Char) (hl : digit_string l) :
    l.takeWhile (fun c => decide ('0' ≤ c ∧ c ≤ '9')) = l := by
  rw [List.takeWhile_eq_self_iff]
  intro c hc
  simpa using hl c hc

theorem stoi_digits (l : List Char) (hl : digit_string l) (hne : l ≠ []) (hlen : l.length ≤ 9) :
    stoi l = some (decimal_value l : Int) := by
  cases l with
  | nil => exact absurd rfl hne
  | cons c rest =>
    have hc : '0' ≤ c ∧ c ≤ '9' := hl c (List.mem_cons_self _ _)
    obtain ⟨hsp, hm, hp⟩ := digit_not_space_sign hc
    have hlt := decimal_value_lt (c :: rest) hl
    have hpow : 10 ^ (c :: rest).length ≤ 10 ^ 9 := Nat.pow_le_pow_right (by norm_num) hlen
    have hcast := decimal_fold_cast (c :: rest) hl 0
    unfold stoi
    simp only [List.dropWhile_cons, hsp, Bool.false_eq_true, if_false, List.head?_cons,
      Option.some.injEq, hm, hp, or_self, decide_False, takeWhile_digit_string _ hl,
      List.isEmpty_cons]
    rw [show ((0 : Int)) = ((0 : Nat) : Int) from rfl, hcast]
    change (if ((decimal_value (c :: rest) : Nat) : Int) < -2147483648
        ∨ ((decimal_value (c :: rest) : Nat) : Int) > 2147483647 then none
      else some ((decimal_value (c :: rest) : Nat) : Int)) = _
    have hv : ((decimal_value (c :: rest) : Nat) : Int) < 1000000000 := by
      have : decimal_value (c :: rest) < 1000000000 := by
        calc decimal_value (c :: rest) < 10 ^ (c :: rest).length := hlt
          _ ≤ 10 ^ 9 := hpow
          _ = 1000000000 := by norm_num
      exact_mod_cast this
    have hv0 : (0 : Int) ≤ ((decimal_value (c :: rest) : Nat) : Int) := Int.ofNat_nonneg _
    rw [if_neg (by omega)]

theorem char_eq_of_digit_value {c : Char} (h : '0' ≤ c ∧ c ≤ '9') (k : Nat)
    (hk : digit_value c = k) : c = Char.ofNat (48 + k) := by
  have hb := digit_toNat_bounds h
  have h0 : '0'.toNat = 48 := by decide
  unfold digit_value at hk
  rw [h0] at hk
  have : c.toNat = 48 + k := by omega
  rw [← this, Char.ofNat_toNat]

theorem substr_zero (d : List Char) (n : Nat) : substr d 0 n = some (d.take n) := by
  simp [substr]

theorem first_digit_four_iff {c : Char} (h : '0' ≤ c ∧ c ≤ '9') :
    ((c.toNat : Int) - ('0'.toNat : Int) = 4) ↔ c = '4' := by
  rw [(digit_value_cast h).1]
  constructor
  · intro h4
    have := char_eq_of_digit_value h 4 (by exact_mod_cast h4)
    simpa using this
  · rintro rfl
    decide

theorem take_two_value_iff (a b : Char) (ha : '0' ≤ a ∧ a ≤ '9') (hb : '0' ≤ b ∧ b ≤ '9') :
    decimal_value [a, b] = 65 ↔ [a, b] = "65".toList := by
  have h9a := (digit_value_cast ha).2
  have h9b := (digit_value_cast hb).2
  constructor
  · intro h
    simp only [decimal_value, List.foldl_cons, List.foldl_nil] at h
    have e1 := char_eq_of_digit_value ha 6 (by omega)
    have e2 := char_eq_of_digit_value hb 5 (by omega)
    rw [e1, e2]
    decide
  · intro h
    rw [h]
    decide

theorem take_four_value_iff (a b c e : Char) (ha : '0' ≤ a ∧ a ≤ '9') (hb : '0' ≤ b ∧ b ≤ '9')
    (hc : '0' ≤ c ∧ c ≤ '9') (he : '0' ≤ e ∧ e ≤ '9') :
    decimal_value [a, b, c, e] = 6011 ↔ [a, b, c, e] = "6011".toList := by
  have h9a := (digit_value_cast ha).2
  have h9b := (digit_value_cast hb).2
  have h9c := (digit_value_cast hc).2
  have h9e := (digit_value_cast he).2
  constructor
  · intro h
    simp only [decimal_value, List.foldl_cons, List.foldl_nil] at h
    have e1 := char_eq_of_digit_value ha 6 (by omega)
    have e2 := char_eq_of_digit_value hb 0 (by omega)
    have e3 := char_eq_of_digit_value hc 1 (by omega)
    have e4 := char_eq_of_digit_value he 1 (by omega)
    rw [e1, e2, e3, e4]
    decide
  · intro h
    rw [h]
    decide

theorem first_four_parsed (d : List Char) (hd : digit_string d) :
    ∃ first_four : Int,
      (if d.length ≥ 4 then (substr d 0 4).bind stoi else some 0) = some first_four
      ∧ (first_four = 6011 ↔ d.take 4 = "6011".toList) := by
  by_cases h : d.length ≥ 4
  · match d, hd, h with
    | a :: b :: c :: e :: rest, hd, _ =>
      have ha : '0' ≤ a ∧ a ≤ '9' := hd a (by simp)
      have hb : '0' ≤ b ∧ b ≤ '9' := hd b (by simp)
      have hc : '0' ≤ c ∧ c ≤ '9' := hd c (by simp)
      have he : '0' ≤ e ∧ e ≤ '9' := hd e (by simp)
      have hs : stoi [a, b, c, e] = some (decimal_value [a, b, c, e] : Int) :=
        stoi_digits [a, b, c, e]
          (fun x hx => hd x (by simp at hx; rcases hx with rfl | rfl | rfl | rfl <;> simp))
          (by simp) (by simp)
      refine ⟨(decimal_value [a, b, c, e] : Int), ?_, ?_⟩
      · simp [substr_zero, hs]
      · have ht : (a :: b :: c :: e :: rest).take 4 = [a, b, c, e] := rfl
        rw [ht, ← take_four_value_iff a b c e ha hb hc he]
        norm_cast
  · refine ⟨0, by simp [h], ?_⟩
    constructor
    · intro h0; norm_num at h0
    · intro h4
      have := congrArg List.length h4
      simp at this
      omega

theorem detect_issuer_eq_table (d : List Char) (hd : digit_string d) :
    detect_issuer d = some (issuer_rule_table d) := by
  match d, hd with
  | [], _ => simp [detect_issuer, issuer_rule_table]
  | [a], _ => simp [detect_issuer, issuer_rule_table]
  | a :: b :: rest, hd =>
    have ha : '0' ≤ a ∧ a ≤ '9' := hd a (by simp)
    have hb : '0' ≤ b ∧ b ≤ '9' := hd b (by simp)
    have h2 : stoi [a, b] = some (decimal_value [a, b] : Int) :=
      stoi_digits [a, b] (fun x hx => hd x (by simp at hx; rcases hx with rfl | rfl <;> simp))
        (by simp) (by simp)
    have h65 := take_two_value_iff a b ha hb
    have h4 := first_digit_four_iff ha
    obtain ⟨first_four, hF, hff⟩ := first_four_parsed (a :: b :: rest) hd
    have hlen : ¬ (a :: b :: rest).length < 2 := by simp
    have hlen2 : (a :: b :: rest).length ≥ 2 := by simp
    have hs2 : (substr (a :: b :: rest) 0 2).bind stoi = some (decimal_value [a, b] : Int) := by
      simp [substr_zero, h2]
    have hg0 : (a :: b :: rest)[0]? = some a := rfl
    have ht2 : (a :: b :: rest).take 2 = [a, b] := rfl
    have hh : (a :: b :: rest).head? = some a := rfl
    unfold detect_issuer issuer_rule_table
    rw [if_neg hlen, if_neg hlen, hF, if_pos hlen2, hs2, hg0, ht2, hh]
    simp only [substr_zero, h4, hff, Option.some.injEq, ge_iff_le, Nat.ofNat_le_cast,
      Nat.cast_le_ofNat, Nat.cast_eq_ofNat]
    simp only [← h65]
    generalize decimal_value [a, b] = n
    generalize (a :: b :: rest).take 6 = p
    generalize (a :: b :: rest).take 4 = q
    generalize (a :: b :: rest).length = m
    have e34 : ((n : Int) = 34) ↔ n = 34 := by omega
    have e37 : ((n : Int) = 37) ↔ n = 37 := by omega
    have e65 : ((n : Int) = 65) ↔ n = 65 := by omega
    simp only [e34, e37, e65]
    clear e34 e37 e65 hs2 hF hff h65 h4 h2 hlen hlen2 hg0 ht2 hh
    split_ifs <;> first | rfl | (exfalso; tauto)

/-- C9: on a digit string `detect_issuer` returns (without raising) the result
of the ordered rule table: Unknown below 2 digits; else Visa when the first
digit is 4; else Mastercard when the first two digits are in 51..55; else Amex
when they are 34 or 37; else Discover when the first four digits are 6011, or
the first two are 65, or there are at least 6 digits and the 6-digit prefix
lies in "622126".."622925" inclusive; else Unknown. -/
theorem detect_issuer_rule_table (d : List Char) (hd : digit_string d) :
    detect_issuer d = some (issuer_rule_table d) :=
  detect_issuer_eq_table d hd

theorem detect_issuer_rule_table_witness :
    digit_string "6221260000000000".toList
    ∧ detect_issuer "6221260000000000".toList = some (issuer_rule_table "6221260000000000".toList)
    ∧ issuer_rule_table "6221260000000000".toList = Issuer.DISCOVER
    ∧ issuer_rule_table "6221250000000000".toList = Issuer.UNKNOWN
    ∧ issuer_rule_table "6011".toList = Issuer.DISCOVER
    ∧ issuer_rule_table "601".toList = Issuer.UNKNOWN
    ∧ issuer_rule_table "5500".toList = Issuer.MASTERCARD
    ∧ issuer_rule_table "37".toList = Issuer.AMEX
    ∧ issuer_rule_table "4".toList = Issuer.UNKNOWN :=
  ⟨by decide, detect_issuer_rule_table "6221260000000000".toList (by decide),
   by decide, by decide, by decide, by decide, by decide, by decide, by decide⟩

/-! ## Lemmas on `repetition_check` -/

theorem all_same_loop_spec (digits : List Char) (first : Char) (fuel i : Nat)
    (hf : digits.length ≤ fuel + i) :
    ∃ b, all_same_loop digits first fuel i = some b
      ∧ (b = true ↔ ∀ j, i ≤ j → j < digits.length → digits[j]? = some first) := by
  induction fuel generalizing i with
  | zero =>
    refine ⟨true, ?_, ?_⟩
    · simp only [all_same_loop]
      rw [if_neg (by omega)]
    · simp only [true_iff]
      intro j h1 h2
      omega
  | succ fuel ih =>
    simp only [all_same_loop]
    by_cases hi : i < digits.length
    · rw [if_pos hi, List.getElem?_eq_getElem hi]
      simp only
      by_cases hc : digits[i] = first
      · rw [if_neg (by simpa using hc)]
        obtain ⟨b, hb, hiff⟩ := ih (i + 1) (by omega)
        refine ⟨b, hb, hiff.trans ⟨?_, ?_⟩⟩
        · intro h j hij hj
          rcases Nat.eq_or_lt_of_le hij with rfl | hlt
          · rw [List.getElem?_eq_getElem hi, hc]
          · exact h j hlt hj
        · intro h j hij hj
          exact h j (by omega) hj
      · rw [if_pos (by simpa using hc)]
        refine ⟨false, rfl, ?_⟩
        simp only [Bool.false_eq_true, false_iff]
        intro h
        have := h i (le_refl _) hi
        rw [List.getElem?_eq_getElem hi] at this
        exact hc (Option.some.inj this)
    · rw [if_neg hi]
      refine ⟨true, rfl, ?_⟩
      simp only [true_iff]
      intro j h1 h2
      omega

theorem sequence_test_iff {p c : Char} (hp : '0' ≤ p ∧ p ≤ '9') (hc : '0' ≤ c ∧ c ≤ '9') :
    ((c.toNat : Int) - ('0'.toNat : Int)
        = Int.tmod ((p.toNat : Int) - ('0'.toNat : Int) + 1) 10)
      ↔ digit_value c = (digit_value p + 1) % 10 := by
  rw [(digit_value_cast hp).1, (digit_value_cast hc).1]
  have h : ((digit_value p : Int) + 1) = ((digit_value p + 1 : Nat) : Int) := by push_cast; rfl
  rw [h, show (10 : Int) = ((10 : Nat) : Int) from rfl, ← Int.ofNat_tmod]
  norm_cast

theorem sequence_loop_spec (digits : List Char) (hd : digit_string digits) (fuel i : Nat)
    (hi1 : 1 ≤ i) (hf : digits.length ≤ fuel + i) :
    ∃ b, sequence_loop digits fuel i = some b
      ∧ (b = true ↔ ∀ j, i ≤ j → j < digits.length →
          digit_value (digits.getD j '0') = (digit_value (digits.getD (j - 1) '0') + 1) % 10) := by
  induction fuel generalizing i with
  | zero =>
    refine ⟨true, ?_, ?_⟩
    · simp only [sequence_loop]
      rw [if_neg (by omega)]
    · simp only [true_iff]
      intro j h1 h2
      omega
  | succ fuel ih =>
    simp only [sequence_loop]
    by_cases hi : i < digits.length
    · have hi' : i - 1 < digits.length := by omega
      have hp : '0' ≤ digits[i - 1] ∧ digits[i - 1] ≤ '9' := hd _ (List.getElem_mem hi')
      have hc : '0' ≤ digits[i] ∧ digits[i] ≤ '9' := hd _ (List.getElem_mem hi)
      have htest := sequence_test_iff hp hc
      rw [if_pos hi, List.getElem?_eq_getElem hi, List.getElem?_eq_getElem hi']
      simp only
      by_cases hs : digit_value digits[i] = (digit_value digits[i - 1] + 1) % 10
      · rw [if_neg (by simpa using htest.mpr hs)]
        obtain ⟨b, hb, hiff⟩ := ih (i + 1) (by omega) (by omega)
        refine ⟨b, hb, hiff.trans ⟨?_, ?_⟩⟩
        · intro h j hij hj
          rcases Nat.eq_or_lt_of_le hij with rfl | hlt
          · rw [List.getD_eq_getElem _ _ hi, List.getD_eq_getElem _ _ hi']
            exact hs
          · exact h j hlt hj
        · intro h j hij hj
          exact h j (by omega) hj
      · rw [if_pos (by simpa using fun h => hs (htest.mp h))]
        refine ⟨false, rfl, ?_⟩
        simp only [Bool.false_eq_true, false_iff]
        intro h
        have := h i (le_refl _) hi
        rw [List.getD_eq_getElem _ _ hi, List.getD_eq_getElem _ _ hi'] at this
        exact hs this
    · rw [if_neg hi]
      refine ⟨true, rfl, ?_⟩
      simp only [true_iff]
      intro j h1 h2
      omega

theorem substr_of_le (digits : List Char) (i n : Nat) (h : i ≤ digits.length) :
    substr digits i n = some ((digits.drop i).take n) := by
  unfold substr
  rw [if_neg (by omega)]

theorem block_loop_total (digits block1 : List Char) (fuel i : Nat) (repeat_count : Int)
    (hf : digits.length ≤ fuel + i) :
    ∃ r, block_loop digits block1 fuel i repeat_count = some r ∧ repeat_count ≤ r := by
  induction fuel generalizing i repeat_count with
  | zero =>
    refine ⟨repeat_count, ?_, le_refl _⟩
    simp only [block_loop]
    rw [if_neg (by omega)]
  | succ fuel ih =>
    simp only [block_loop]
    by_cases hi : i + 4 ≤ digits.length
    · rw [if_pos hi, substr_of_le digits i 4 (by omega)]
      simp only
      by_cases hb : (digits.drop i).take 4 = block1
      · rw [if_pos hb]
        obtain ⟨r, hr, hle⟩ := ih (i + 4) (repeat_count + 1) (by omega)
        exact ⟨r, hr, by omega⟩
      · rw [if_neg hb]
        exact ⟨repeat_count, rfl, le_refl _⟩
    · rw [if_neg hi]
      exact ⟨repeat_count, rfl, le_refl _⟩

theorem block_loop_step (digits block1 : List Char) (fuel i : Nat) (repeat_count : Int) :
    block_loop digits block1 (fuel + 1) i repeat_count
      = if i + 4 ≤ digits.length ∧ (digits.drop i).take 4 = block1
        then block_loop digits block1 fuel (i + 4) (repeat_count + 1)
        else some repeat_count := by
  simp only [block_loop]
  by_cases hi : i + 4 ≤ digits.length
  · rw [if_pos hi, substr_of_le digits i 4 (by omega)]
    simp only [hi, true_and]
  · rw [if_neg hi, if_neg (fun h => hi h.1)]

theorem block_loop_four (digits block1 : List Char) (f : Nat) (hf : digits.length ≤ f + 16) :
    ∃ r, block_loop digits block1 (f + 3) 4 1 = some r
      ∧ (r ≥ 4 ↔ 16 ≤ digits.length ∧ (digits.drop 4).take 4 = block1
          ∧ (digits.drop 8).take 4 = block1 ∧ (digits.drop 12).take 4 = block1) := by
  rw [block_loop_step]
  by_cases h1 : 4 + 4 ≤ digits.length ∧ (digits.drop 4).take 4 = block1
  · rw [if_pos h1, block_loop_step]
    by_cases h2 : 4 + 4 + 4 ≤ digits.length ∧ (digits.drop (4 + 4)).take 4 = block1
    · rw [if_pos h2, block_loop_step]
      by_cases h3 : 4 + 4 + 4 + 4 ≤ digits.length ∧ (digits.drop (4 + 4 + 4)).take 4 = block1
      · rw [if_pos h3]
        obtain ⟨r, hr, hle⟩ := block_loop_total digits block1 f (4 + 4 + 4 + 4) (1 + 1 + 1 + 1)
          (by omega)
        refine ⟨r, hr, ?_⟩
        constructor
        · intro _
          exact ⟨by omega, h1.2, h2.2, h3.2⟩
        · intro _
          omega
      · rw [if_neg h3]
        refine ⟨1 + 1 + 1, rfl, ?_⟩
        constructor
        · intro h; norm_num at h
        · rintro ⟨h16, _, _, h12⟩
          exact absurd ⟨by omega, h12⟩ h3
    · rw [if_neg h2]
      refine ⟨1 + 1, rfl, ?_⟩
      constructor
      · intro h; norm_num at h
      · rintro ⟨h16, _, h8, _⟩
        exact absurd ⟨by omega, h8⟩ h2
  · rw [if_neg h1]
    refine ⟨1, rfl, ?_⟩
    constructor
    · intro h; norm_num at h
    · rintro ⟨h16, h4, _, _⟩
      exact absurd ⟨by omega, h4⟩ h1

theorem all_identical_iff_index (d : List Char) (h0 : 0 < d.length) :
    all_identical d ↔ ∀ j, 1 ≤ j → j < d.length → d[j]? = some d[0] := by
  have hhead : d.head? = some d[0] := by
    cases d with
    | nil => simp at h0
    | cons a rest => rfl
  unfold all_identical
  rw [hhead]
  constructor
  · intro h j _ hj
    rw [List.getElem?_eq_getElem hj]
    exact h _ (List.getElem_mem hj)
  · intro h c hc
    obtain ⟨j, hj, rfl⟩ := List.getElem_of_mem hc
    rcases Nat.eq_zero_or_pos j with rfl | hpos
    · rfl
    · have := h j hpos hj
      rw [List.getElem?_eq_getElem hj] at this
      exact this

theorem ascending_cyclic_iff_index (d : List Char) :
    ascending_cyclic d ↔ ∀ j, 1 ≤ j → j < d.length →
      digit_value (d.getD j '0') = (digit_value (d.getD (j - 1) '0') + 1) % 10 := by
  unfold ascending_cyclic
  constructor
  · intro h j h1 hj
    have := h (j - 1) (by omega)
    rwa [Nat.sub_add_cancel h1] at this
  · intro h i hi
    have := h (i + 1) (by omega) (by omega)
    simpa using this

theorem repetition_check_spec (d : List Char) (hd : digit_string d) :
    ∃ b, repetition_check d = some b
      ∧ (b = false ↔ 4 ≤ d.length
          ∧ (all_identical d ∨ first_block_repeats d ∨ ascending_cyclic d)) := by
  by_cases hlen : d.length < 4
  · refine ⟨true, ?_, ?_⟩
    · unfold repetition_check
      rw [if_pos hlen]
    · constructor
      · intro h; cases h
      · rintro ⟨h4, _⟩; omega
  · have h0 : 0 < d.length := by omega
    obtain ⟨b1, hA, hA'⟩ := all_same_loop_spec d d[0] d.length 1 (by omega)
    rw [← all_identical_iff_index d h0] at hA'
    obtain ⟨b3, hC, hC'⟩ := sequence_loop_spec d hd d.length 1 (le_refl _) (by omega)
    rw [← ascending_cyclic_iff_index d] at hC'
    have hB : ∃ b2, (if d.length ≥ 8 then
              match substr d 0 4 with
              | none => none
              | some block1 =>
                match block_loop d block1 d.length 4 1 with
                | none => none
                | some repeat_count => some (decide (repeat_count ≥ 4))
            else some false) = some b2 ∧ (b2 = true ↔ first_block_repeats d) := by
      by_cases h8 : d.length ≥ 8
      · obtain ⟨f, hf⟩ : ∃ f, d.length = f + 3 := ⟨d.length - 3, by omega⟩
        obtain ⟨r, hr, hiff⟩ := block_loop_four d (d.take 4) f (by omega)
        rw [← hf] at hr
        refine ⟨decide (r ≥ 4), ?_, ?_⟩
        · rw [if_pos h8, substr_zero]
          simp only [hr]
        · rw [decide_eq_true_iff, hiff]
          rfl
      · refine ⟨false, by rw [if_neg h8], ?_⟩
        constructor
        · intro h; cases h
        · rintro ⟨h16, _⟩; omega
    obtain ⟨b2, hB, hB'⟩ := hB
    unfold repetition_check
    rw [if_neg hlen, List.getElem?_eq_getElem h0]
    simp only [hA, hB, hC]
    cases b1 <;> cases b2 <;> cases b3 <;> simp_all

theorem validate_out_of_range (input : List Char) (start stop : Int)
    (h : (normalize_input input).length < 13 ∨ (normalize_input input).length > 19) :
    validate input start stop = some
      { value_initialized with
        normalized := normalize_input input
        length := static_cast_int (normalize_input input).length
        length_check := ⟨false, "Length must be 13–19 digits".toList⟩
        ns_elapsed := stop - start } := by
  unfold validate
  simp only [h, if_true]
  rfl

theorem validate_in_range (input : List Char) (start stop : Int)
    (h : ¬ ((normalize_input input).length < 13 ∨ (normalize_input input).length > 19))
    (issuer : Issuer) (hi : detect_issuer (normalize_input input) = some issuer)
    (repetition_ok : Bool) (hr : repetition_check (normalize_input input) = some repetition_ok) :
    validate input start stop = some
      { valid := luhn_check (normalize_input input)
        high_confidence := luhn_check (normalize_input input)
          && decide (calculate_entropy (normalize_input input) ≥ ENTROPY_THRESHOLD)
          && repetition_ok
        normalized := normalize_input input
        length := static_cast_int (normalize_input input).length
        length_check := ⟨true, "Length OK (".toList ++ to_string (normalize_input input).length ++
          " digits)".toList⟩
        issuer := issuer
        issuer_name := issuer_to_string issuer
        luhn_check := ⟨luhn_check (normalize_input input),
          if luhn_check (normalize_input input) then "PASS".toList else "FAIL".toList⟩
        entropy := calculate_entropy (normalize_input input)
        entropy_passed := decide (calculate_entropy (normalize_input input) ≥ ENTROPY_THRESHOLD)
        entropy_check := ⟨decide (calculate_entropy (normalize_input input) ≥ ENTROPY_THRESHOLD),
          ostream_fixed2 (calculate_entropy (normalize_input input)) ++
            " bits/digit (threshold: ".toList ++ ostream_fixed2 ENTROPY_THRESHOLD ++ ") ".toList ++
            (if decide (calculate_entropy (normalize_input input) ≥ ENTROPY_THRESHOLD)
              then "PASS".toList else "FAIL".toList)⟩
        repetition_check := ⟨repetition_ok,
          if repetition_ok then "PASS".toList else "FAIL".toList⟩
        ns_elapsed := stop - start } := by
  unfold validate
  simp only [h, if_false, hi, hr]

theorem digit_count_eq_length (input : List Char) :
    digit_count input = (normalize_input input).length := by
  unfold digit_count
  rw [normalize_input_eq_filter, List.countP_eq_length_filter]

theorem stages_return (input : List Char) :
    ∃ issuer repetition_ok,
      detect_issuer (normalize_input input) = some issuer
      ∧ repetition_check (normalize_input input) = some repetition_ok := by
  have hd := normalize_input_digit_string input
  obtain ⟨b, hb, _⟩ := repetition_check_spec _ hd
  exact ⟨_, b, detect_issuer_eq_table _ hd, hb⟩

/-- C2: `validate` returns a result whose `valid` flag is true exactly when the
input has between 13 and 19 digit characters and `luhn_check` passes on the
normalized digits; nothing else (entropy, repetition) enters `valid`. -/
theorem validate_valid_iff (input : List Char) (start stop : Int) :
    ∃ r, validate input start stop = some r
      ∧ (r.valid = true ↔
          (13 ≤ digit_count input ∧ digit_count input ≤ 19)
          ∧ luhn_check (normalize_input input) = true) := by
  rw [digit_count_eq_length]
  by_cases h : (normalize_input input).length < 13 ∨ (normalize_input input).length > 19
  · refine ⟨_, validate_out_of_range input start stop h, ?_⟩
    simp only [value_initialized, Bool.false_eq_true, false_iff]
    rintro ⟨⟨h13, h19⟩, _⟩
    omega
  · obtain ⟨issuer, rep, hi, hr⟩ := stages_return input
    refine ⟨_, validate_in_range input start stop h issuer hi rep hr, ?_⟩
    simp only
    constructor
    · intro hl
      exact ⟨by omega, hl⟩
    · exact fun hh => hh.2

/-- C3: the result of `validate` has
`high_confidence = (valid && entropy_passed && repetition_check.passed)`, so it
never has `high_confidence = true` together with `valid = false`. -/
theorem validate_high_confidence (input : List Char) (start stop : Int) :
    ∃ r, validate input start stop = some r
      ∧ r.high_confidence = (r.valid && r.entropy_passed && r.repetition_check.passed)
      ∧ ¬ (r.high_confidence = true ∧ r.valid = false) := by
  by_cases h : (normalize_input input).length < 13 ∨ (normalize_input input).length > 19
  · refine ⟨_, validate_out_of_range input start stop h, ?_, ?_⟩
    · simp [value_initialized]
    · simp [value_initialized]
  · obtain ⟨issuer, rep, hi, hr⟩ := stages_return input
    refine ⟨_, validate_in_range input start stop h issuer hi rep hr, rfl, ?_⟩
    simp only
    rintro ⟨h1, h2⟩
    rw [h2] at h1
    simp at h1

theorem static_cast_int_of_small (n : Nat) (h : n < 2147483648) :
    static_cast_int n = (n : Int) := by
  unfold static_cast_int
  exact wrap_int_of_small _ (by omega) (by omega)

theorem digit_string_zeros (n : Nat) : digit_string (List.replicate n '0') := by
  intro c hc
  rw [List.eq_of_mem_replicate hc]
  decide

theorem validate_on_zeros (n : Nat) (hn : 19 < n) (start stop : Int) :
    ∃ r, validate (List.replicate n '0') start stop = some r
      ∧ r.normalized.length = n ∧ r.length = static_cast_int n
      ∧ r.length_check.passed = false := by
  have hnorm : normalize_input (List.replicate n '0') = List.replicate n '0' :=
    normalize_input_of_digit_string (digit_string_zeros n)
  have hlen : (normalize_input (List.replicate n '0')).length = n := by
    rw [hnorm, List.length_replicate]
  have h : (normalize_input (List.replicate n '0')).length < 13
      ∨ (normalize_input (List.replicate n '0')).length > 19 := by
    rw [hlen]; exact Or.inr hn
  refine ⟨_, validate_out_of_range _ start stop h, hlen, ?_, rfl⟩
  show static_cast_int (normalize_input (List.replicate n '0')).length = static_cast_int n
  rw [hlen]

/-- C4, as the code behaves: the result of `validate` carries `normalized =
normalize_input(input)`, `length` = the length of `normalized` converted to a
32-bit `int`, and `length_check.passed` is true exactly when the length of
`normalized` is between 13 and 19; when the input has fewer than 2^31 digit
characters, `length` is the length of `normalized` and `length_check.passed`
is true exactly when `13 <= length <= 19`: 12 and 20 digits fail, 13 and 19
pass. -/
theorem validate_length_check (input : List Char) (start stop : Int) :
    ∃ r, validate input start stop = some r
      ∧ r.normalized = normalize_input input
      ∧ r.length = static_cast_int r.normalized.length
      ∧ (r.length_check.passed = true ↔ 13 ≤ r.normalized.length ∧ r.normalized.length ≤ 19)
      ∧ (digit_count input < 2147483648 →
          r.length = (r.normalized.length : Int)
          ∧ (r.length_check.passed = true ↔ 13 ≤ r.length ∧ r.length ≤ 19)
          ∧ (r.length = 12 ∨ r.length = 20 → r.length_check.passed = false)
          ∧ (r.length = 13 ∨ r.length = 19 → r.length_check.passed = true)) := by
  by_cases h : (normalize_input input).length < 13 ∨ (normalize_input input).length > 19
  · refine ⟨_, validate_out_of_range input start stop h, rfl, rfl, ?_, ?_⟩
    · simp only [Bool.false_eq_true, false_iff]
      omega
    · intro hsize
      rw [digit_count_eq_length] at hsize
      have hcast := static_cast_int_of_small _ hsize
      refine ⟨hcast, ?_, ?_, ?_⟩
      · simp only [Bool.false_eq_true, false_iff, hcast]
        omega
      · intro _; rfl
      · simp only [hcast]
        omega
  · obtain ⟨issuer, rep, hi, hr⟩ := stages_return input
    refine ⟨_, validate_in_range input start stop h issuer hi rep hr, rfl, rfl, ?_, ?_⟩
    · simp only [true_iff]
      omega
    · intro hsize
      rw [digit_count_eq_length] at hsize
      have hcast := static_cast_int_of_small _ hsize
      refine ⟨hcast, ?_, ?_, ?_⟩
      · simp only [true_iff, hcast]
        omega
      · simp only [hcast]
        omega
      · intro _; rfl

theorem validate_length_check_witness :
    digit_count "4539 1488 0343 6467".toList < 2147483648
    ∧ ∃ r, validate "4539 1488 0343 6467".toList 0 1 = some r
      ∧ r.normalized = normalize_input "4539 1488 0343 6467".toList
      ∧ r.length = static_cast_int r.normalized.length
      ∧ (r.length_check.passed = true ↔ 13 ≤ r.normalized.length ∧ r.normalized.length ≤ 19)
      ∧ r.length = (r.normalized.length : Int)
      ∧ (r.length_check.passed = true ↔ 13 ≤ r.length ∧ r.length ≤ 19) := by
  obtain ⟨r, h1, h2, h3, h4, h5⟩ := validate_length_check "4539 1488 0343 6467".toList 0 1
  obtain ⟨h6, h7, _⟩ := h5 (by decide)
  exact ⟨by decide, r, h1, h2, h3, h4, h6, h7⟩

/-- C4 fails as stated: on 2^31 digits the result has `length = -2147483648`,
not the length of `normalized`; on 2^32 + 13 digits it has `length = 13`
although `length_check.passed` is false. -/
theorem validate_length_truncated_on_long_input :
    (∃ r, validate (List.replicate 2147483648 '0') 0 1 = some r
      ∧ r.normalized.length = 2147483648 ∧ r.length = -2147483648
      ∧ r.length ≠ (r.normalized.length : Int))
    ∧ (∃ r, validate (List.replicate 4294967309 '0') 0 1 = some r
      ∧ r.normalized.length = 4294967309 ∧ r.length = 13
      ∧ r.length_check.passed = false
      ∧ ¬ (r.length_check.passed = true ↔ 13 ≤ r.length ∧ r.length ≤ 19)) := by
  have c1 : static_cast_int 2147483648 = -2147483648 := by
    unfold static_cast_int wrap_int
    norm_num
  have c2 : static_cast_int 4294967309 = 13 := by
    unfold static_cast_int wrap_int
    norm_num
  constructor
  · obtain ⟨r, h1, h2, h3, _⟩ := validate_on_zeros 2147483648 (by norm_num) 0 1
    refine ⟨r, h1, h2, h3.trans c1, ?_⟩
    rw [h3, c1, h2]
    norm_num
  · obtain ⟨r, h1, h2, h3, h4⟩ := validate_on_zeros 4294967309 (by norm_num) 0 1
    refine ⟨r, h1, h2, h3.trans c2, h4, ?_⟩
    rw [h4, h3, c2]
    simp

/-- C5: when the input has fewer than 13 or more than 19 digit characters,
`validate` returns `valid = false`, `high_confidence = false` and leaves every
downstream field at its default (issuer UNKNOWN, empty issuer name, Luhn,
entropy and repetition outcomes false with empty messages, entropy 0), whatever
the stages would compute; `normalized` and `length` are filled in (`length`
with the size of `normalized` as an `int`, which is that size below 2^31
digits) and the length check is reported as failed. -/
theorem validate_short_circuit (input : List Char) (start stop : Int)
    (h : digit_count input < 13 ∨ digit_count input > 19) :
    ∃ r, validate input start stop = some r
      ∧ r.valid = false ∧ r.high_confidence = false
      ∧ r.issuer = Issuer.UNKNOWN ∧ r.issuer_name = []
      ∧ r.luhn_check.passed = false ∧ r.luhn_check.message = []
      ∧ r.entropy = 0 ∧ r.entropy_passed = false
      ∧ r.entropy_check.passed = false ∧ r.entropy_check.message = []
      ∧ r.repetition_check.passed = false ∧ r.repetition_check.message = []
      ∧ r.normalized = normalize_input input
      ∧ r.length = static_cast_int (normalize_input input).length
      ∧ (digit_count input < 2147483648 → r.length = ((normalize_input input).length : Int))
      ∧ r.length_check.passed = false := by
  have hcount := digit_count_eq_length input
  rw [hcount] at h
  refine ⟨_, validate_out_of_range input start stop h, rfl, rfl, rfl, rfl, rfl, rfl, rfl, rfl,
    rfl, rfl, rfl, rfl, rfl, rfl, ?_, rfl⟩
  intro hsize
  rw [hcount] at hsize
  exact static_cast_int_of_small _ hsize

theorem validate_short_circuit_witness :
    (digit_count "4000 0000 0002".toList < 13 ∨ digit_count "4000 0000 0002".toList > 19)
    ∧ luhn_check (normalize_input "4000 0000 0002".toList) = true
    ∧ detect_issuer (normalize_input "4000 0000 0002".toList) = some Issuer.VISA
    ∧ repetition_check (normalize_input "4000 0000 0002".toList) = some true
    ∧ ∃ r, validate "4000 0000 0002".toList 0 1 = some r
      ∧ r.valid = false ∧ r.high_confidence = false
      ∧ r.issuer = Issuer.UNKNOWN ∧ r.issuer_name = []
      ∧ r.luhn_check.passed = false ∧ r.luhn_check.message = []
      ∧ r.entropy = 0 ∧ r.entropy_passed = false
      ∧ r.entropy_check.passed = false ∧ r.entropy_check.message = []
      ∧ r.repetition_check.passed = false ∧ r.repetition_check.message = []
      ∧ r.normalized = normalize_input "4000 0000 0002".toList
      ∧ r.length = static_cast_int (normalize_input "4000 0000 0002".toList).length
      ∧ (digit_count "4000 0000 0002".toList < 2147483648 →
          r.length = ((normalize_input "4000 0000 0002".toList).length : Int))
      ∧ r.length = 12
      ∧ r.length_check.passed = false := by
  obtain ⟨r, h0, h1, h2, h3, h4, h5, h6, h7, h8, h9, h10, h11, h12, h13, h14, h15, h16⟩ :=
    validate_short_circuit "4000 0000 0002".toList 0 1 (by decide)
  have h17 : r.length = 12 := (h15 (by decide)).trans (by decide)
  exact ⟨by decide, by decide, by decide, by decide,
    r, h0, h1, h2, h3, h4, h5, h6, h7, h8, h9, h10, h11, h12, h13, h14, h15, h17, h16⟩

/-- C6: when the input has between 13 and 19 digit characters, `validate` runs
every stage on the normalized digits `n`, whatever the other stages return:
`issuer = detect_issuer(n)`, `issuer_name = issuer_to_string(issuer)`,
`luhn_check.passed = luhn_check(n)`, `entropy = calculate_entropy(n)`,
`entropy_passed = (entropy >= 3.5)`, `repetition_check.passed =
repetition_check(n)`; and on `4539 1488 0343 6467` it gives the normalized digits
`4539148803436467`, length 16, issuer Visa, Luhn pass and `valid = true`. -/
theorem validate_runs_every_stage (input : List Char) (start stop : Int)
    (h : 13 ≤ digit_count input ∧ digit_count input ≤ 19) :
    (∃ r issuer repetition_ok, validate input start stop = some r
      ∧ detect_issuer (normalize_input input) = some issuer
      ∧ repetition_check (normalize_input input) = some repetition_ok
      ∧ r.issuer = issuer ∧ r.issuer_name = issuer_to_string issuer
      ∧ r.luhn_check.passed = luhn_check (normalize_input input)
      ∧ r.entropy = calculate_entropy (normalize_input input)
      ∧ (r.entropy_passed = true ↔ r.entropy ≥ 3.5)
      ∧ r.entropy_check.passed = r.entropy_passed
      ∧ r.repetition_check.passed = repetition_ok
      ∧ r.length_check.passed = true)
    ∧ (∃ r, validate "4539 1488 0343 6467".toList start stop = some r
      ∧ r.normalized = "4539148803436467".toList ∧ r.length = 16
      ∧ r.issuer = Issuer.VISA ∧ r.luhn_check.passed = true ∧ r.valid = true) := by
  rw [digit_count_eq_length] at h
  have hn : ¬ ((normalize_input input).length < 13 ∨ (normalize_input input).length > 19) := by
    omega
  obtain ⟨issuer, rep, hi, hr⟩ := stages_return input
  constructor
  · refine ⟨_, issuer, rep, validate_in_range input start stop hn issuer hi rep hr, hi, hr,
      rfl, rfl, rfl, rfl, ?_, rfl, rfl, rfl⟩
    simp only [decide_eq_true_eq, ENTROPY_THRESHOLD]
  · have hex : ¬ ((normalize_input "4539 1488 0343 6467".toList).length < 13
        ∨ (normalize_input "4539 1488 0343 6467".toList).length > 19) := by decide
    have hnorm : normalize_input "4539 1488 0343 6467".toList = "4539148803436467".toList := by
      decide
    have hlen : static_cast_int (normalize_input "4539 1488 0343 6467".toList).length = 16 := by
      decide
    have hluhn : luhn_check (normalize_input "4539 1488 0343 6467".toList) = true := by decide
    exact ⟨_, validate_in_range "4539 1488 0343 6467".toList start stop hex Issuer.VISA
      (by decide) true (by decide), hnorm, hlen, rfl, hluhn, hluhn⟩

theorem validate_runs_every_stage_witness :
    (13 ≤ digit_count "4539-1488-0343-6468".toList
      ∧ digit_count "4539-1488-0343-6468".toList ≤ 19)
    ∧ luhn_check (normalize_input "4539-1488-0343-6468".toList) = false
    ∧ ∃ r issuer repetition_ok, validate "4539-1488-0343-6468".toList 0 1 = some r
      ∧ detect_issuer (normalize_input "4539-1488-0343-6468".toList) = some issuer
      ∧ repetition_check (normalize_input "4539-1488-0343-6468".toList) = some repetition_ok
      ∧ r.issuer = issuer ∧ r.issuer_name = issuer_to_string issuer
      ∧ r.luhn_check.passed = luhn_check (normalize_input "4539-1488-0343-6468".toList)
      ∧ r.entropy = calculate_entropy (normalize_input "4539-1488-0343-6468".toList)
      ∧ (r.entropy_passed = true ↔ r.entropy ≥ 3.5)
      ∧ r.entropy_check.passed = r.entropy_passed
      ∧ r.repetition_check.passed = repetition_ok
      ∧ r.length_check.passed = true :=
  ⟨by decide, by decide,
   (validate_runs_every_stage "4539-1488-0343-6468".toList 0 1 (by decide)).1⟩

/-! ## `validate` never raises, and reads its input through the digits only -/

theorem detect_issuer_raises_on_letters : detect_issuer "ab".toList = none := by decide

/-- C13: `validate` returns a result on every input text, the empty one, the
short ones and those with non-digit characters included: `detect_issuer` and
`repetition_check`, whose `stoi`, `substr` and indexing could raise, are only
called on the normalized digits, where they return. -/
theorem validate_never_raises (input : List Char) (start stop : Int) :
    (∃ r, validate input start stop = some r)
    ∧ (∃ issuer, detect_issuer (normalize_input input) = some issuer)
    ∧ (∃ passed, repetition_check (normalize_input input) = some passed)
    ∧ (∃ r, validate "".toList start stop = some r)
    ∧ (∃ r, validate "4".toList start stop = some r)
    ∧ (∃ r, validate "4x1".toList start stop = some r)
    ∧ (∃ r, validate "card: 4539-1488-0343-6467!".toList start stop = some r) := by
  have key : ∀ x : List Char, ∃ r, validate x start stop = some r := by
    intro x
    by_cases h : (normalize_input x).length < 13 ∨ (normalize_input x).length > 19
    · exact ⟨_, validate_out_of_range x start stop h⟩
    · obtain ⟨issuer, rep, hi, hr⟩ := stages_return x
      exact ⟨_, validate_in_range x start stop h issuer hi rep hr⟩
  obtain ⟨issuer, rep, hi, hr⟩ := stages_return input
  exact ⟨key input, ⟨issuer, hi⟩, ⟨rep, hr⟩, key _, key _, key _, key _⟩

theorem validate_congr_normalized (x y : List Char) (start stop : Int)
    (h : normalize_input x = normalize_input y) :
    validate x start stop = validate y start stop := by
  unfold validate
  simp only [h]

theorem validate_clock_only (x : List Char) (start stop start' stop' : Int) :
    ∃ r r', validate x start stop = some r ∧ validate x start' stop' = some r'
      ∧ r' = { r with ns_elapsed := stop' - start' } := by
  by_cases h : (normalize_input x).length < 13 ∨ (normalize_input x).length > 19
  · exact ⟨_, _, validate_out_of_range x start stop h, validate_out_of_range x start' stop' h, rfl⟩
  · obtain ⟨issuer, rep, hi, hr⟩ := stages_return x
    exact ⟨_, _, validate_in_range x start stop h issuer hi rep hr,
      validate_in_range x start' stop' h issuer hi rep hr, rfl⟩

/-- C20: `validate` depends on its input only through the digits: when
`normalize_input(x) = normalize_input(y)`, the two results agree on every field
other than `ns_elapsed` (the clock readings may differ between the calls). -/
theorem validate_depends_on_digits (x y : List Char) (start stop start' stop' : Int)
    (h : normalize_input x = normalize_input y) :
    ∃ rx ry, validate x start stop = some rx ∧ validate y start' stop' = some ry
      ∧ rx.valid = ry.valid ∧ rx.high_confidence = ry.high_confidence
      ∧ rx.normalized = ry.normalized ∧ rx.length = ry.length
      ∧ rx.length_check = ry.length_check
      ∧ rx.issuer = ry.issuer ∧ rx.issuer_name = ry.issuer_name
      ∧ rx.luhn_check = ry.luhn_check
      ∧ rx.entropy = ry.entropy ∧ rx.entropy_passed = ry.entropy_passed
      ∧ rx.entropy_check = ry.entropy_check
      ∧ rx.repetition_check = ry.repetition_check := by
  obtain ⟨r, r', h1, h2, h3⟩ := validate_clock_only x start stop start' stop'
  rw [validate_congr_normalized x y start' stop' h] at h2
  refine ⟨r, r', h1, h2, ?_⟩
  subst h3
  exact ⟨rfl, rfl, rfl, rfl, rfl, rfl, rfl, rfl, rfl, rfl, rfl, rfl⟩

theorem validate_depends_on_digits_witness :
    normalize_input "4539 1488-0343 x6467".toList = normalize_input "4539148803436467".toList
    ∧ ∃ rx ry, validate "4539 1488-0343 x6467".toList 0 7 = some rx
      ∧ validate "4539148803436467".toList 100 250 = some ry
      ∧ rx.valid = ry.valid ∧ rx.high_confidence = ry.high_confidence
      ∧ rx.normalized = ry.normalized ∧ rx.length = ry.length
      ∧ rx.length_check = ry.length_check
      ∧ rx.issuer = ry.issuer ∧ rx.issuer_name = ry.issuer_name
      ∧ rx.luhn_check = ry.luhn_check
      ∧ rx.entropy = ry.entropy ∧ rx.entropy_passed = ry.entropy_passed
      ∧ rx.entropy_check = ry.entropy_check
      ∧ rx.repetition_check = ry.repetition_check :=
  ⟨by decide, validate_depends_on_digits "4539 1488-0343 x6467".toList
    "4539148803436467".toList 0 7 100 250 (by decide)⟩

/-! ## Error detection by `luhn_check` -/

theorem luhn_total_split (pre post : List Char) (x : Char) :
    luhn_total (pre ++ x :: post)
      = ((post.reverse.enumFrom 0).map (fun p => luhn_term p.1 (digit_value p.2))).sum
        + luhn_term post.length (digit_value x)
        + ((pre.reverse.enumFrom (post.length + 1)).map
            (fun p => luhn_term p.1 (digit_value p.2))).sum := by
  unfold luhn_total List.enum
  simp only [List.reverse_append, List.reverse_cons, List.append_assoc, List.enumFrom_append,
    List.map_append, List.sum_append, List.length_reverse, List.singleton_append,
    List.enumFrom_cons, List.map_cons, List.sum_cons, zero_add, List.length_append,
    List.length_singleton]
  ring

theorem luhn_term_le (pos digit : Nat) (h : digit ≤ 9) : luhn_term pos digit ≤ 9 := by
  unfold luhn_term
  split_ifs <;> omega

theorem luhn_term_injective (pos a b : Nat) (ha : a ≤ 9) (hb : b ≤ 9)
    (h : luhn_term pos a = luhn_term pos b) : a = b := by
  unfold luhn_term at h
  split_ifs at h <;> omega

theorem digit_char_of_value (k : Nat) (hk : k ≤ 9) :
    ('0' ≤ Char.ofNat (48 + k) ∧ Char.ofNat (48 + k) ≤ '9')
      ∧ digit_value (Char.ofNat (48 + k)) = k := by
  interval_cases k <;> decide

theorem digit_string_append {a b : List Char} :
    digit_string (a ++ b) ↔ digit_string a ∧ digit_string b := by
  unfold digit_string
  simp only [List.mem_append]
  constructor
  · intro h
    exact ⟨fun c hc => h c (Or.inl hc), fun c hc => h c (Or.inr hc)⟩
  · rintro ⟨h1, h2⟩ c (hc | hc)
    · exact h1 c hc
    · exact h2 c hc

theorem digit_string_cons {a : Char} {l : List Char} :
    digit_string (a :: l) ↔ ('0' ≤ a ∧ a ≤ '9') ∧ digit_string l := by
  unfold digit_string
  simp only [List.mem_cons, forall_eq_or_imp]

theorem luhn_check_iff_mod (d : List Char) (hd : digit_string d) (hne : d ≠ [])
    (hfit : luhn_total d ≤ 2147483647) :
    luhn_check d = true ↔ luhn_total d % 10 = 0 := by
  rw [luhn_check_eq_total d hd hfit]
  cases d with
  | nil => exact absurd rfl hne
  | cons c rest => simp

theorem luhn_check_iff_wrapped (d : List Char) (hd : digit_string d) (hne : d ≠ []) :
    luhn_check d = true ↔ 10 ∣ wrap_int (luhn_total d : Int) := by
  rw [luhn_check_eq_wrapped d hd]
  cases d with
  | nil => exact absurd rfl hne
  | cons c rest => simp

theorem luhn_replace_digit (pre post : List Char) (x y : Char)
    (hd : digit_string (pre ++ x :: post)) (hy : '0' ≤ y ∧ y ≤ '9') (hxy : y ≠ x)
    (hl : luhn_check (pre ++ x :: post) = true) :
    luhn_check (pre ++ y :: post) = false := by
  have hpre := (digit_string_append.mp hd).1
  have hx := (digit_string_cons.mp (digit_string_append.mp hd).2).1
  have hpost := (digit_string_cons.mp (digit_string_append.mp hd).2).2
  have hd' : digit_string (pre ++ y :: post) :=
    digit_string_append.mpr ⟨hpre, digit_string_cons.mpr ⟨hy, hpost⟩⟩
  rw [luhn_check_iff_wrapped _ hd (by simp), luhn_total_split] at hl
  rw [← Bool.not_eq_true, luhn_check_iff_wrapped _ hd' (by simp), luhn_total_split]
  intro hl'
  have h9x := luhn_term_le post.length _ (digit_value_cast hx).2
  have h9y := luhn_term_le post.length _ (digit_value_cast hy).2
  have heq : luhn_term post.length (digit_value y) = luhn_term post.length (digit_value x) := by
    generalize luhn_term post.length (digit_value x) = tx at hl h9x
    generalize luhn_term post.length (digit_value y) = ty at hl' h9y
    generalize ((post.reverse.enumFrom 0).map (fun p => luhn_term p.1 (digit_value p.2))).sum
      = r at hl hl'
    generalize ((pre.reverse.enumFrom (post.length + 1)).map
      (fun p => luhn_term p.1 (digit_value p.2))).sum = l at hl hl'
    have e : ((r + ty + l : Nat) : Int) = ((r + tx + l : Nat) : Int) + ((ty : Int) - (tx : Int)) := by
      push_cast; ring
    rw [e] at hl'
    have := wrap_int_dvd_shift _ _ (by omega) (by omega) hl hl'
    omega
  have hv := luhn_term_injective _ _ _ (digit_value_cast hy).2 (digit_value_cast hx).2 heq
  have e1 := char_eq_of_digit_value hy _ hv
  have e2 := char_eq_of_digit_value hx _ rfl
  exact hxy (e1.trans e2.symm)

/-- C14: `luhn_check` catches every single-digit error: when a digit string
passes, replacing the digit at any one position by a different digit gives a
string that fails. -/
theorem luhn_check_single_digit_error (d : List Char) (hd : digit_string d)
    (hl : luhn_check d = true) (i : Nat) (hi : i < d.length) (y : Char)
    (hy : '0' ≤ y ∧ y ≤ '9') (hne : y ≠ d[i]) :
    luhn_check (d.set i y) = false := by
  have hsplit : d = d.take i ++ d[i] :: d.drop (i + 1) := by
    rw [List.getElem_cons_drop, List.take_append_drop]
  have hset : d.set i y = d.take i ++ y :: d.drop (i + 1) := by
    rw [List.set_eq_take_append_cons_drop, if_pos hi]
  rw [hset]
  rw [hsplit] at hd hl
  exact luhn_replace_digit _ _ _ _ hd hy hne hl

theorem luhn_check_single_digit_error_witness :
    digit_string "4539148803436467".toList
    ∧ luhn_check "4539148803436467".toList = true
    ∧ ("4539148803436467".toList.set 15 '8') = "4539148803436468".toList
    ∧ luhn_check ("4539148803436467".toList.set 15 '8') = false :=
  ⟨by decide, by decide, by decide,
   luhn_check_single_digit_error "4539148803436467".toList (by decide) (by decide) 15
     (by decide) '8' (by decide) (by decide)⟩

theorem luhn_total_split_two (pre post : List Char) (a b : Char) :
    luhn_total (pre ++ a :: b :: post)
      = ((post.reverse.enumFrom 0).map (fun p => luhn_term p.1 (digit_value p.2))).sum
        + luhn_term post.length (digit_value b)
        + luhn_term (post.length + 1) (digit_value a)
        + ((pre.reverse.enumFrom (post.length + 2)).map
            (fun p => luhn_term p.1 (digit_value p.2))).sum := by
  have h : pre ++ a :: b :: post = (pre ++ [a]) ++ b :: post := by simp
  rw [h, luhn_total_split]
  simp only [List.reverse_append, List.reverse_cons, List.reverse_nil, List.nil_append,
    List.singleton_append, List.enumFrom_cons, List.map_cons, List.sum_cons]
  ring

theorem luhn_swap_adjacent (pre post : List Char) (a b : Char)
    (hd : digit_string (pre ++ a :: b :: post)) (hab : a ≠ b)
    (h09 : ¬ (a = '0' ∧ b = '9')) (h90 : ¬ (a = '9' ∧ b = '0'))
    (hl : luhn_check (pre ++ a :: b :: post) = true) :
    luhn_check (pre ++ b :: a :: post) = false := by
  have hpre := (digit_string_append.mp hd).1
  have htl := (digit_string_append.mp hd).2
  have ha := (digit_string_cons.mp htl).1
  have hb := (digit_string_cons.mp (digit_string_cons.mp htl).2).1
  have hpost := (digit_string_cons.mp (digit_string_cons.mp htl).2).2
  have hd' : digit_string (pre ++ b :: a :: post) :=
    digit_string_append.mpr ⟨hpre, digit_string_cons.mpr ⟨hb, digit_string_cons.mpr ⟨ha, hpost⟩⟩⟩
  rw [luhn_check_iff_wrapped _ hd (by simp), luhn_total_split_two] at hl
  rw [← Bool.not_eq_true, luhn_check_iff_wrapped _ hd' (by simp), luhn_total_split_two]
  intro hl'
  have h9a := (digit_value_cast ha).2
  have h9b := (digit_value_cast hb).2
  have ea := char_eq_of_digit_value ha _ rfl
  have eb := char_eq_of_digit_value hb _ rfl
  have hne : digit_value a ≠ digit_value b := by
    intro h
    apply hab
    rw [ea, eb, h]
  have hn09 : ¬ (digit_value a = 0 ∧ digit_value b = 9) := by
    rintro ⟨h0, h9⟩
    apply h09
    rw [ea, eb, h0, h9]
    exact ⟨by decide, by decide⟩
  have hn90 : ¬ (digit_value a = 9 ∧ digit_value b = 0) := by
    rintro ⟨h9, h0⟩
    apply h90
    rw [ea, eb, h0, h9]
    exact ⟨by decide, by decide⟩
  generalize digit_value a = u at *
  generalize digit_value b = v at *
  generalize ((post.reverse.enumFrom 0).map (fun p => luhn_term p.1 (digit_value p.2))).sum
    = r at hl hl'
  generalize ((pre.reverse.enumFrom (post.length + 2)).map
    (fun p => luhn_term p.1 (digit_value p.2))).sum = l at hl hl'
  have hδ : -9 ≤ ((luhn_term post.length u + luhn_term (post.length + 1) v : Nat) : Int)
        - ((luhn_term post.length v + luhn_term (post.length + 1) u : Nat) : Int)
      ∧ ((luhn_term post.length u + luhn_term (post.length + 1) v : Nat) : Int)
        - ((luhn_term post.length v + luhn_term (post.length + 1) u : Nat) : Int) ≤ 9
      ∧ ((luhn_term post.length u + luhn_term (post.length + 1) v : Nat) : Int)
        - ((luhn_term post.length v + luhn_term (post.length + 1) u : Nat) : Int) ≠ 0 := by
    unfold luhn_term
    split_ifs <;> omega
  have e : ((r + luhn_term post.length u + luhn_term (post.length + 1) v + l : Nat) : Int)
      = ((r + luhn_term post.length v + luhn_term (post.length + 1) u + l : Nat) : Int)
        + (((luhn_term post.length u + luhn_term (post.length + 1) v : Nat) : Int)
          - ((luhn_term post.length v + luhn_term (post.length + 1) u : Nat) : Int)) := by
    push_cast; ring
  rw [e] at hl'
  exact hδ.2.2 (wrap_int_dvd_shift _ _ hδ.1 hδ.2.1 hl hl')

/-- C15, as the code behaves: when a digit string passes `luhn_check`,
exchanging two adjacent digits that differ from each other and are not the
pair 0 and 9 gives a string that fails. -/
theorem luhn_check_transposition (pre post : List Char) (a b : Char)
    (hd : digit_string (pre ++ a :: b :: post))
    (hl : luhn_check (pre ++ a :: b :: post) = true) (hab : a ≠ b)
    (h09 : ¬ (a = '0' ∧ b = '9')) (h90 : ¬ (a = '9' ∧ b = '0')) :
    luhn_check (pre ++ b :: a :: post) = false :=
  luhn_swap_adjacent pre post a b hd hab h09 h90 hl

theorem luhn_check_transposition_witness :
    digit_string ("45391488034364".toList ++ '6' :: '7' :: [])
    ∧ luhn_check ("45391488034364".toList ++ '6' :: '7' :: []) = true
    ∧ luhn_check ("45391488034364".toList ++ '7' :: '6' :: []) = false :=
  ⟨by decide, by decide,
   luhn_check_transposition "45391488034364".toList [] '6' '7' (by decide) (by decide)
     (by decide) (by decide) (by decide)⟩

/-- C15 fails as stated: `4539148803430908` passes `luhn_check`, and
exchanging its adjacent digits 0 and 9 gives `4539148803439008`, which passes
as well. -/
theorem luhn_check_misses_09_transposition :
    digit_string "4539148803430908".toList
    ∧ "4539148803430908".toList = "453914880343".toList ++ '0' :: '9' :: "08".toList
    ∧ luhn_check ("453914880343".toList ++ '0' :: '9' :: "08".toList) = true
    ∧ '0' ≠ '9'
    ∧ "453914880343".toList ++ '9' :: '0' :: "08".toList = "4539148803439008".toList
    ∧ luhn_check ("453914880343".toList ++ '9' :: '0' :: "08".toList) = true := by
  decide

theorem luhn_total_nines_two (n : Nat) (c : Char) :
    luhn_total ((List.replicate n '9' ++ ['2']) ++ [c]) = digit_value c + 4 + 9 * n := by
  have h2 : luhn_term 1 (digit_value '2') = 4 := by decide
  rw [luhn_total_split]
  simp only [List.reverse_nil, List.enumFrom_nil, List.map_nil, List.sum_nil, List.length_nil,
    List.reverse_append, List.reverse_cons, List.nil_append, List.reverse_replicate,
    List.singleton_append, List.enumFrom_cons, List.map_cons, List.sum_cons, zero_add, h2,
    luhn_sum_nines]
  simp only [luhn_term, Nat.zero_mod, if_true]
  omega

/-- C19, as the code behaves: every digit string of at most 238609293 digits,
the empty one included, has exactly one check digit: exactly one digit
character `c` makes `luhn_check` pass on the string followed by `c`. -/
theorem luhn_check_digit_unique (d : List Char) (hd : digit_string d)
    (hlen : d.length ≤ 238609293) :
    ∃! c : Char, ('0' ≤ c ∧ c ≤ '9') ∧ luhn_check (d ++ [c]) = true := by
  have hsplit : ∀ c : Char, luhn_total (d ++ [c])
      = digit_value c + ((d.reverse.enumFrom 1).map
          (fun p => luhn_term p.1 (digit_value p.2))).sum := by
    intro c
    rw [luhn_total_split]
    simp [luhn_term]
  have hcheck : ∀ c : Char, ('0' ≤ c ∧ c ≤ '9') →
      (luhn_check (d ++ [c]) = true ↔ luhn_total (d ++ [c]) % 10 = 0) := by
    intro c hc
    have hdc : digit_string (d ++ [c]) := digit_string_append.mpr ⟨hd, digit_string_cons.mpr
      ⟨hc, fun _ h => absurd h (List.not_mem_nil _)⟩⟩
    have hle := luhn_total_le _ hdc
    rw [List.length_append, List.length_singleton] at hle
    exact luhn_check_iff_mod _ hdc (by simp) (by omega)
  generalize ((d.reverse.enumFrom 1).map (fun p => luhn_term p.1 (digit_value p.2))).sum = t
    at hsplit
  have hk : (10 - t % 10) % 10 ≤ 9 := by omega
  obtain ⟨hdig, hval⟩ := digit_char_of_value _ hk
  refine ⟨Char.ofNat (48 + (10 - t % 10) % 10), ⟨hdig, ?_⟩, ?_⟩
  · rw [hcheck _ hdig, hsplit, hval]
    omega
  · rintro c ⟨hc, hl⟩
    rw [hcheck c hc, hsplit] at hl
    have h9 := (digit_value_cast hc).2
    exact char_eq_of_digit_value hc _ (by omega)

theorem luhn_check_digit_unique_witness :
    digit_string "453914880343646".toList
    ∧ "453914880343646".toList.length ≤ 238609293
    ∧ (∃! c : Char, ('0' ≤ c ∧ c ≤ '9') ∧ luhn_check ("453914880343646".toList ++ [c]) = true)
    ∧ luhn_check ("453914880343646".toList ++ ['7']) = true
    ∧ (∃! c : Char, ('0' ≤ c ∧ c ≤ '9') ∧ luhn_check (([] : List Char) ++ [c]) = true)
    ∧ luhn_check (([] : List Char) ++ ['0']) = true :=
  ⟨by decide, by decide,
   luhn_check_digit_unique "453914880343646".toList (by decide) (by decide), by decide,
   luhn_check_digit_unique [] (by decide) (by decide), by decide⟩

/-- C19 fails as stated: the digit string made of 238609293 nines followed by
`2` has no check digit. With the digit `c` appended the total is `c +
2147483641`; for `c` from 0 to 6 it is not divisible by 10, and for `c` from 7
to 9 the 32-bit `sum` wraps to -2147483648, -2147483647, -2147483646. -/
theorem luhn_check_digit_missing_on_long_string :
    digit_string (List.replicate 238609293 '9' ++ ['2'])
    ∧ (List.replicate 238609293 '9' ++ ['2']).length = 238609294
    ∧ wrap_int 2147483648 = -2147483648
    ∧ ¬ ∃ c : Char, ('0' ≤ c ∧ c ≤ '9')
        ∧ luhn_check ((List.replicate 238609293 '9' ++ ['2']) ++ [c]) = true := by
  have hP : digit_string (List.replicate 238609293 '9' ++ ['2']) :=
    digit_string_append.mpr ⟨digit_string_nines _, by decide⟩
  have hlenP : (List.replicate 238609293 '9' ++ ['2']).length = 238609294 := by
    rw [List.length_append, List.length_replicate, List.length_singleton]
  have hw : wrap_int 2147483648 = -2147483648 := by
    unfold wrap_int
    norm_num
  refine ⟨hP, hlenP, hw, ?_⟩
  rintro ⟨c, hc, hl⟩
  have hdc : digit_string ((List.replicate 238609293 '9' ++ ['2']) ++ [c]) :=
    digit_string_append.mpr ⟨hP, digit_string_cons.mpr
      ⟨hc, fun _ h => absurd h (List.not_mem_nil _)⟩⟩
  rw [luhn_check_iff_wrapped _ hdc (List.append_ne_nil_of_right_ne_nil _ (List.cons_ne_nil _ _)),
    luhn_total_nines_two] at hl
  have h9 := (digit_value_cast hc).2
  generalize digit_value c = k at hl h9
  interval_cases k <;> exact absurd hl (by decide)

/-! ## The repeated-block rule of `repetition_check` -/

/-- C17, as the code behaves: on a digit string of length at least 8 that is
neither all-identical nor an ascending cyclic sequence, if some complete
4-character block at offset 4, 8 or 12 differs from the first block, then
`repetition_check` passes. -/
theorem repetition_check_block_mismatch (d : List Char) (hd : digit_string d)
    (_h8 : 8 ≤ d.length) (hsame : ¬ all_identical d) (hseq : ¬ ascending_cyclic d)
    (hblock : ∃ k, 1 ≤ k ∧ k ≤ 3 ∧ 4 * k + 4 ≤ d.length
      ∧ (d.drop (4 * k)).take 4 ≠ d.take 4) :
    repetition_check d = some true := by
  obtain ⟨b, hb, hiff⟩ := repetition_check_spec d hd
  have hnb : ¬ first_block_repeats d := by
    rintro ⟨_, h4, h8', h12⟩
    obtain ⟨k, hk1, hk3, _, hne⟩ := hblock
    interval_cases k
    · exact hne h4
    · exact hne h8'
    · exact hne h12
  cases b with
  | true => exact hb
  | false =>
    obtain ⟨_, h | h | h⟩ := hiff.mp rfl
    · exact absurd h hsame
    · exact absurd h hnb
    · exact absurd h hseq

theorem repetition_check_block_mismatch_witness :
    digit_string "1234123499991234".toList
    ∧ 8 ≤ "1234123499991234".toList.length
    ∧ ¬ all_identical "1234123499991234".toList
    ∧ ¬ ascending_cyclic "1234123499991234".toList
    ∧ ("1234123499991234".toList.drop (4 * 2)).take 4 ≠ "1234123499991234".toList.take 4
    ∧ repetition_check "1234123499991234".toList = some true :=
  ⟨by decide, by decide, by decide, by decide, by decide,
   repetition_check_block_mismatch "1234123499991234".toList (by decide) (by decide)
     (by decide) (by decide) ⟨2, by decide, by decide, by decide, by decide⟩⟩

/-- C17 fails as stated: `12341234123412345678` has 20 digits, is neither
all-identical nor ascending, and its complete block at offset 16 (`5678`)
differs from the first block (`1234`); yet the blocks at offsets 4, 8 and 12
already brought the repeat count to 4, and `repetition_check` fails. -/
theorem repetition_check_late_mismatch_fails :
    digit_string "12341234123412345678".toList
    ∧ 8 ≤ "12341234123412345678".toList.length
    ∧ ¬ all_identical "12341234123412345678".toList
    ∧ ¬ ascending_cyclic "12341234123412345678".toList
    ∧ 16 + 4 ≤ "12341234123412345678".toList.length
    ∧ ("12341234123412345678".toList.drop 16).take 4 = "5678".toList
    ∧ "12341234123412345678".toList.take 4 = "1234".toList
    ∧ ("12341234123412345678".toList.drop 16).take 4 ≠ "12341234123412345678".toList.take 4
    ∧ block_loop "12341234123412345678".toList "1234".toList 20 4 1 = some 4
    ∧ repetition_check "12341234123412345678".toList = some false := by
  decide

/-! ## Dictionary order and numeric order on digit strings of equal length -/

theorem lex_cons_iff (a b : Char) (p q : List Char) :
    a :: p < b :: q ↔ a < b ∨ (a = b ∧ p < q) := by
  constructor
  · intro h
    cases h with
    | cons h' => exact Or.inr ⟨rfl, h'⟩
    | rel h' => exact Or.inl h'
  · rintro (h | ⟨rfl, h⟩)
    · exact List.Lex.rel h
    · exact List.Lex.cons h

theorem decimal_fold_acc (l : List Char) (acc : Nat) :
    l.foldl (fun a c => 10 * a + digit_value c) acc
      = acc * 10 ^ l.length + l.foldl (fun a c => 10 * a + digit_value c) 0 := by
  induction l generalizing acc with
  | nil => simp
  | cons c rest ih =>
    rw [List.foldl_cons, List.foldl_cons, ih, ih (10 * 0 + digit_value c), List.length_cons]
    ring

theorem decimal_value_cons (a : Char) (l : List Char) :
    decimal_value (a :: l) = digit_value a * 10 ^ l.length + decimal_value l := by
  unfold decimal_value
  rw [List.foldl_cons, decimal_fold_acc]
  simp

theorem digit_lt_iff {a b : Char} (ha : '0' ≤ a ∧ a ≤ '9') (hb : '0' ≤ b ∧ b ≤ '9') :
    a < b ↔ digit_value a < digit_value b := by
  have h1 := digit_toNat_bounds ha
  have h2 := digit_toNat_bounds hb
  have h0 : '0'.toNat = 48 := by decide
  have key : a < b ↔ a.toNat < b.toNat := by
    rw [Char.lt_def]
    exact Iff.rfl
  rw [key]
  unfold digit_value
  rw [h0]
  omega

theorem lex_lt_iff_value_lt (p q : List Char) (hp : digit_string p) (hq : digit_string q)
    (hlen : p.length = q.length) : p < q ↔ decimal_value p < decimal_value q := by
  induction p generalizing q with
  | nil =>
    cases q with
    | nil => simp [decimal_value]
    | cons b q => simp at hlen
  | cons a p ih =>
    cases q with
    | nil => simp at hlen
    | cons b q =>
      have ha := (digit_string_cons.mp hp).1
      have hb := (digit_string_cons.mp hq).1
      have hp' := (digit_string_cons.mp hp).2
      have hq' := (digit_string_cons.mp hq).2
      have hl : p.length = q.length := by simpa using hlen
      have h1 := decimal_value_lt p hp'
      have h2 := decimal_value_lt q hq'
      rw [lex_cons_iff, decimal_value_cons, decimal_value_cons, ih q hp' hq' hl,
        digit_lt_iff ha hb, hl]
      rw [hl] at h1
      have hab : a = b ↔ digit_value a = digit_value b := by
        constructor
        · rintro rfl; rfl
        · intro h
          rw [char_eq_of_digit_value ha _ rfl, char_eq_of_digit_value hb _ rfl, h]
      rw [hab]
      generalize digit_value a = u
      generalize digit_value b = v
      generalize decimal_value p = x at *
      generalize decimal_value q = y at *
      generalize 10 ^ q.length = n at *
      constructor
      · rintro (h | ⟨rfl, h⟩)
        · have : (u + 1) * n ≤ v * n := Nat.mul_le_mul_right n h
          nlinarith
        · omega
      · intro h
        rcases Nat.lt_trichotomy u v with huv | huv | huv
        · exact Or.inl huv
        · subst huv
          exact Or.inr ⟨rfl, by omega⟩
        · exfalso
          have : (v + 1) * n ≤ u * n := Nat.mul_le_mul_right n huv
          nlinarith

theorem lex_le_iff_value_le (p q : List Char) (hp : digit_string p) (hq : digit_string q)
    (hlen : p.length = q.length) : p ≤ q ↔ decimal_value p ≤ decimal_value q := by
  rw [← not_lt, lex_lt_iff_value_lt q p hq hp hlen.symm, not_lt]

theorem digit_string_take (d : List Char) (hd : digit_string d) (n : Nat) :
    digit_string (d.take n) :=
  fun c hc => hd c (List.mem_of_mem_take hc)

theorem discover_range_iff (d : List Char) (hd : digit_string d) (h6 : 6 ≤ d.length) :
    ("622126".toList ≤ d.take 6 ∧ d.take 6 ≤ "622925".toList)
      ↔ (622126 ≤ decimal_value (d.take 6) ∧ decimal_value (d.take 6) ≤ 622925) := by
  have ht := digit_string_take d hd 6
  have hlen : (d.take 6).length = 6 := by
    rw [List.length_take]
    omega
  have hlo : digit_string "622126".toList := by decide
  have hhi : digit_string "622925".toList := by decide
  have vlo : decimal_value "622126".toList = 622126 := by decide
  have vhi : decimal_value "622925".toList = 622925 := by decide
  rw [lex_le_iff_value_le _ _ hlo ht (by rw [hlen]; rfl),
    lex_le_iff_value_le _ _ ht hhi (by rw [hlen]; rfl), vlo, vhi]

theorem first_six_parsed (d : List Char) (hd : digit_string d) (h6 : 6 ≤ d.length) :
    (substr d 0 6).bind stoi = some (decimal_value (d.take 6) : Int) := by
  have ht := digit_string_take d hd 6
  have hlen : (d.take 6).length = 6 := by
    rw [List.length_take]
    omega
  rw [substr_zero, Option.some_bind]
  exact stoi_digits _ ht (by intro h; rw [h] at hlen; simp at hlen) (by omega)

theorem range_test_strings (d : List Char) :
    (if d.length ≥ 6 then
        match substr d 0 6 with
        | none => none
        | some lo =>
          if lo ≥ "622126".toList then
            match substr d 0 6 with
            | none => none
            | some hi =>
              if hi ≤ "622925".toList then some Issuer.DISCOVER else some Issuer.UNKNOWN
          else some Issuer.UNKNOWN
      else some Issuer.UNKNOWN)
      = if 6 ≤ d.length ∧ "622126".toList ≤ d.take 6 ∧ d.take 6 ≤ "622925".toList
        then some Issuer.DISCOVER else some Issuer.UNKNOWN := by
  simp only [substr_zero, ge_iff_le]
  split_ifs <;> first | rfl | (exfalso; tauto)

theorem range_test_integers (d : List Char) (hd : digit_string d) :
    (if d.length ≥ 6 then
        match (substr d 0 6).bind stoi with
        | none => none
        | some first_six =>
          if first_six ≥ 622126 ∧ first_six ≤ 622925 then some Issuer.DISCOVER
          else some Issuer.UNKNOWN
      else some Issuer.UNKNOWN)
      = if 6 ≤ d.length ∧ "622126".toList ≤ d.take 6 ∧ d.take 6 ≤ "622925".toList
        then some Issuer.DISCOVER else some Issuer.UNKNOWN := by
  by_cases h6 : 6 ≤ d.length
  · have hiff := discover_range_iff d hd h6
    rw [if_pos h6, first_six_parsed d hd h6]
    simp only [h6, true_and, hiff, ge_iff_le]
    have e : ∀ n : Nat, ((622126 : Int) ≤ (n : Int) ∧ (n : Int) ≤ 622925)
        ↔ (622126 ≤ n ∧ n ≤ 622925) := by
      intro n; omega
    simp only [e]
  · rw [if_neg h6, if_neg (fun h => h6 h.1)]

theorem detect_issuer_integer_range_eq (d : List Char) (hd : digit_string d) :
    detect_issuer_integer_range d = detect_issuer d := by
  unfold detect_issuer_integer_range detect_issuer
  simp only [range_test_strings, range_test_integers d hd]

/-- C16: on a digit string of length at least 6, the dictionary comparison of
the 6-character prefix with "622126" and "622925" that `detect_issuer` makes
gives the same answer as the integer comparison `622126 <= value(prefix) <=
622925`, where `value(prefix)` is what `stoi` reads from the prefix; and
`detect_issuer` with the integer comparison in place of the string comparison
returns the same issuer on every digit string. -/
theorem discover_range_string_vs_integer (d : List Char) (hd : digit_string d) :
    (6 ≤ d.length →
      (substr d 0 6).bind stoi = some (decimal_value (d.take 6) : Int)
      ∧ (("622126".toList ≤ d.take 6 ∧ d.take 6 ≤ "622925".toList)
          ↔ (622126 ≤ decimal_value (d.take 6) ∧ decimal_value (d.take 6) ≤ 622925)))
    ∧ detect_issuer_integer_range d = detect_issuer d :=
  ⟨fun h6 => ⟨first_six_parsed d hd h6, discover_range_iff d hd h6⟩,
   detect_issuer_integer_range_eq d hd⟩

theorem discover_range_string_vs_integer_witness :
    digit_string "6229250000000003".toList
    ∧ 6 ≤ "6229250000000003".toList.length
    ∧ (substr "6229250000000003".toList 0 6).bind stoi = some 622925
    ∧ detect_issuer_integer_range "6229250000000003".toList = some Issuer.DISCOVER
    ∧ detect_issuer_integer_range "6229250000000003".toList
        = detect_issuer "6229250000000003".toList
    ∧ detect_issuer_integer_range "6229260000000003".toList = some Issuer.UNKNOWN :=
  ⟨by decide, by decide, by decide, by decide,
   (discover_range_string_vs_integer "6229250000000003".toList (by decide)).2, by decide⟩

/-! ## The frequency map of `calculate_entropy` -/

theorem freq_increment_keys (F : List (Char × Int)) (c k : Char) :
    k ∈ (freq_increment F c).map Prod.fst ↔ k = c ∨ k ∈ F.map Prod.fst := by
  induction F with
  | nil => simp [freq_increment]
  | cons p rest ih =>
    obtain ⟨k', v⟩ := p
    simp only [freq_increment]
    split_ifs with h1 h2
    · subst h1
      simp only [List.map_cons, List.mem_cons]
      tauto
    · simp only [List.map_cons, List.mem_cons]
    · simp only [List.map_cons, List.mem_cons, ih]
      tauto

theorem freq_increment_sorted (F : List (Char × Int)) (c : Char)
    (hs : (F.map Prod.fst).Pairwise (· < ·)) :
    ((freq_increment F c).map Prod.fst).Pairwise (· < ·) := by
  induction F with
  | nil => simp [freq_increment]
  | cons p rest ih =>
    obtain ⟨k, v⟩ := p
    simp only [List.map_cons, List.pairwise_cons] at hs
    obtain ⟨hk, hrest⟩ := hs
    simp only [freq_increment]
    split_ifs with h1 h2
    · simp only [List.map_cons, List.pairwise_cons]
      exact ⟨hk, hrest⟩
    · simp only [List.map_cons, List.pairwise_cons, List.mem_cons]
      refine ⟨?_, hk, hrest⟩
      rintro x (rfl | hx)
      · exact h2
      · exact lt_trans h2 (hk x hx)
    · simp only [List.map_cons, List.pairwise_cons]
      refine ⟨?_, ih hrest⟩
      intro x hx
      rcases (freq_increment_keys rest c x).mp hx with rfl | hx'
      · exact lt_of_le_of_ne (le_of_not_lt h2) (fun h => h1 h.symm)
      · exact hk x hx'

theorem freq_increment_values (F : List (Char × Int)) (c : Char)
    (hs : (F.map Prod.fst).Pairwise (· < ·)) :
    ∀ p ∈ freq_increment F c,
      (p.1 = c ∧ ((∃ v, (c, v) ∈ F ∧ p.2 = v + 1) ∨ (c ∉ F.map Prod.fst ∧ p.2 = 1)))
      ∨ (p.1 ≠ c ∧ p ∈ F) := by
  induction F with
  | nil =>
    intro p hp
    simp only [freq_increment, List.mem_singleton] at hp
    subst hp
    exact Or.inl ⟨rfl, Or.inr ⟨by simp, rfl⟩⟩
  | cons q rest ih =>
    obtain ⟨k, v⟩ := q
    simp only [List.map_cons, List.pairwise_cons] at hs
    obtain ⟨hk, hrest⟩ := hs
    intro p hp
    simp only [freq_increment] at hp
    split_ifs at hp with h1 h2
    · subst h1
      rcases List.mem_cons.mp hp with rfl | hp'
      · exact Or.inl ⟨rfl, Or.inl ⟨v, List.mem_cons_self _ _, rfl⟩⟩
      · refine Or.inr ⟨?_, List.mem_cons_of_mem _ hp'⟩
        exact (ne_of_lt (hk p.1 (List.mem_map_of_mem _ hp'))).symm
    · rcases List.mem_cons.mp hp with rfl | hp'
      · refine Or.inl ⟨rfl, Or.inr ⟨?_, rfl⟩⟩
        simp only [List.map_cons, List.mem_cons, not_or]
        refine ⟨h1, fun hmem => ?_⟩
        exact absurd (lt_trans h2 (hk c hmem)) (lt_irrefl c)
      · refine Or.inr ⟨?_, hp'⟩
        rcases List.mem_cons.mp hp' with rfl | hp''
        · exact (ne_of_lt h2).symm
        · exact (ne_of_lt (lt_trans h2 (hk p.1 (List.mem_map_of_mem _ hp'')))).symm
    · rcases List.mem_cons.mp hp with rfl | hp'
      · exact Or.inr ⟨fun h => h1 h.symm, List.mem_cons_self _ _⟩
      · rcases ih hrest p hp' with ⟨hpc, hcase⟩ | ⟨hpc, hmem⟩
        · refine Or.inl ⟨hpc, ?_⟩
          rcases hcase with ⟨w, hw, hval⟩ | ⟨hnot, hval⟩
          · exact Or.inl ⟨w, List.mem_cons_of_mem _ hw, hval⟩
          · refine Or.inr ⟨?_, hval⟩
            simp only [List.map_cons, List.mem_cons, not_or]
            exact ⟨h1, hnot⟩
        · exact Or.inr ⟨hpc, List.mem_cons_of_mem _ hmem⟩

theorem freq_fold_spec (d : List Char) (hd : digit_string d) :
    ((d.foldl (fun freq c => if '0' ≤ c ∧ c ≤ '9' then freq_increment freq c else freq)
        []).map Prod.fst).Pairwise (· < ·)
    ∧ (∀ p ∈ d.foldl (fun freq c => if '0' ≤ c ∧ c ≤ '9' then freq_increment freq c else freq)
        [], p.2 = (d.count p.1 : Int))
    ∧ (∀ k, k ∈ (d.foldl (fun freq c => if '0' ≤ c ∧ c ≤ '9' then freq_increment freq c
        else freq) []).map Prod.fst ↔ k ∈ d) := by
  induction d using List.reverseRecOn with
  | nil => simp
  | append_singleton init c ih =>
    obtain ⟨hinit, hc'⟩ := digit_string_append.mp hd
    have hc : '0' ≤ c ∧ c ≤ '9' := (digit_string_cons.mp hc').1
    obtain ⟨hs, hv, hk⟩ := ih hinit
    rw [List.foldl_append, List.foldl_cons, List.foldl_nil, if_pos hc]
    generalize init.foldl (fun freq c => if '0' ≤ c ∧ c ≤ '9' then freq_increment freq c
      else freq) [] = F at hs hv hk
    refine ⟨freq_increment_sorted F c hs, ?_, ?_⟩
    · intro p hp
      rw [List.count_append, List.count_singleton]
      rcases freq_increment_values F c hs p hp with ⟨hpc, hcase⟩ | ⟨hpc, hmem⟩
      · rcases hcase with ⟨w, hw, hval⟩ | ⟨hnot, hval⟩
        · have := hv (c, w) hw
          simp only at this
          rw [hval, this, hpc]
          simp
        · have hnc : c ∉ init := fun h => hnot ((hk c).mpr h)
          rw [hval, hpc, List.count_eq_zero_of_not_mem hnc]
          simp
      · rw [hv p hmem]
        have : (c == p.1) = false := by
          simp only [beq_eq_false_iff_ne, ne_eq]
          exact fun h => hpc h.symm
        simp [this]
    · intro k
      rw [freq_increment_keys, hk k, List.mem_append, List.mem_singleton]
      tauto

theorem entropy_fold_eq (l : List (Char × Int)) (len e0 : ℝ)
    (hpos : ∀ p ∈ l, (p.2 : ℝ) / len > 0) :
    l.foldl (fun entropy p =>
        if (p.2 : ℝ) / len > 0 then entropy - (p.2 : ℝ) / len * Real.logb 2 ((p.2 : ℝ) / len)
        else entropy) e0
      = e0 - (l.map (fun p => (p.2 : ℝ) / len * Real.logb 2 ((p.2 : ℝ) / len))).sum := by
  induction l generalizing e0 with
  | nil => simp
  | cons p rest ih =>
    rw [List.foldl_cons, if_pos (hpos p (List.mem_cons_self _ _)),
      ih _ (fun q hq => hpos q (List.mem_cons_of_mem _ hq)), List.map_cons, List.sum_cons]
    ring

theorem calculate_entropy_eq_shannon (d : List Char) (hd : digit_string d) (hne : d ≠ []) :
    calculate_entropy d = shannon_entropy d := by
  obtain ⟨hs, hv, hk⟩ := freq_fold_spec d hd
  have hlen : (0 : ℝ) < (d.length : ℝ) := by
    have : 0 < d.length := List.length_pos.mpr hne
    exact_mod_cast this
  unfold calculate_entropy shannon_entropy
  have hemp : d.isEmpty = false := by
    cases d with
    | nil => exact absurd rfl hne
    | cons a l => rfl
  simp only [hemp, Bool.false_eq_true, if_false]
  generalize d.foldl (fun freq c => if '0' ≤ c ∧ c ≤ '9' then freq_increment freq c
      else freq) [] = F at hs hv hk
  have hpos : ∀ p ∈ F, (p.2 : ℝ) / (d.length : ℝ) > 0 := by
    intro p hp
    have hmem : p.1 ∈ d := (hk p.1).mp (List.mem_map_of_mem _ hp)
    have hc : 0 < d.count p.1 := List.count_pos_iff.mpr hmem
    rw [hv p hp]
    apply div_pos _ hlen
    exact_mod_cast hc
  rw [entropy_fold_eq F _ 0 hpos, zero_sub, neg_inj]
  have hmap : F.map (fun p => (p.2 : ℝ) / (d.length : ℝ)
        * Real.logb 2 ((p.2 : ℝ) / (d.length : ℝ)))
      = (F.map Prod.fst).map (fun c => ((d.count c : ℝ) / (d.length : ℝ))
        * Real.logb 2 ((d.count c : ℝ) / (d.length : ℝ))) := by
    rw [List.map_map]
    apply List.map_congr_left
    intro p hp
    simp only [Function.comp_apply, hv p hp, Int.cast_natCast]
  have hnodup : (F.map Prod.fst).Nodup := hs.imp (fun h => ne_of_lt h)
  have hfin : (F.map Prod.fst).toFinset = d.toFinset := by
    ext k
    simp only [List.mem_toFinset]
    exact hk k
  rw [hmap, ← List.sum_toFinset _ hnodup, hfin]

/-! ## Bounds on the entropy -/

theorem entropy_term_nonneg (p : ℝ) (hp : 0 < p) (hp1 : p ≤ 1) :
    0 ≤ -(p * Real.logb 2 p) := by
  have h : Real.logb 2 p ≤ 0 := Real.logb_nonpos (by norm_num) hp.le hp1
  nlinarith

theorem entropy_term_le (p : ℝ) (hp : 0 < p) :
    -(p * Real.logb 2 p) ≤ p * Real.logb 2 10 + (1 / 10 - p) / Real.log 2 := by
  have hlog2 : 0 < Real.log 2 := Real.log_pos (by norm_num)
  have h10p : 0 < 1 / (10 * p) := by positivity
  have hkey := Real.log_le_sub_one_of_pos h10p
  rw [Real.log_div (by norm_num) (by positivity), Real.log_one, zero_sub,
    Real.log_mul (by norm_num) hp.ne'] at hkey
  have hmul : p * (-(Real.log 10 + Real.log p)) ≤ p * (1 / (10 * p) - 1) :=
    mul_le_mul_of_nonneg_left hkey hp.le
  have hsimp : p * (1 / (10 * p) - 1) = 1 / 10 - p := by
    field_simp
    ring
  rw [hsimp] at hmul
  unfold Real.logb
  rw [show p * (Real.log p / Real.log 2) = (p * Real.log p) / Real.log 2 by ring,
    show p * (Real.log 10 / Real.log 2) = (p * Real.log 10) / Real.log 2 by ring,
    ← add_div, ← neg_div]
  apply div_le_div_of_nonneg_right _ hlog2.le
  linarith

theorem digit_chars_card (d : List Char) (hd : digit_string d) : d.toFinset.card ≤ 10 := by
  have hsub : d.toFinset ⊆ "0123456789".toList.toFinset := by
    intro c hc
    have h := hd c (List.mem_toFinset.mp hc)
    have hb := digit_toNat_bounds h
    have hv : digit_value c ≤ 9 := (digit_value_cast h).2
    have e := char_eq_of_digit_value h _ rfl
    rw [e]
    generalize digit_value c = k at hv
    interval_cases k <;> decide
  calc d.toFinset.card ≤ "0123456789".toList.toFinset.card := Finset.card_le_card hsub
    _ = 10 := by decide

theorem shannon_entropy_bounds (d : List Char) (hd : digit_string d) (hne : d ≠ []) :
    0 ≤ shannon_entropy d ∧ shannon_entropy d ≤ Real.logb 2 10 := by
  have hlenN : 0 < d.length := List.length_pos.mpr hne
  have hlen : (0 : ℝ) < (d.length : ℝ) := by exact_mod_cast hlenN
  have hlog2 : 0 < Real.log 2 := Real.log_pos (by norm_num)
  have hp : ∀ c ∈ d.toFinset, 0 < (d.count c : ℝ) / (d.length : ℝ)
      ∧ (d.count c : ℝ) / (d.length : ℝ) ≤ 1 := by
    intro c hc
    have hpos : 0 < d.count c := List.count_pos_iff.mpr (List.mem_toFinset.mp hc)
    have hle : d.count c ≤ d.length := List.count_le_length _ _
    constructor
    · apply div_pos _ hlen
      exact_mod_cast hpos
    · rw [div_le_one hlen]
      exact_mod_cast hle
  have hsum : Finset.sum d.toFinset (fun c => (d.count c : ℝ) / (d.length : ℝ)) = 1 := by
    rw [← Finset.sum_div, ← Nat.cast_sum, List.sum_toFinset_count_eq_length]
    exact div_self hlen.ne'
  have hcard : (d.toFinset.card : ℝ) ≤ 10 := by
    exact_mod_cast digit_chars_card d hd
  unfold shannon_entropy
  rw [← Finset.sum_neg_distrib]
  constructor
  · apply Finset.sum_nonneg
    intro c hc
    exact entropy_term_nonneg _ (hp c hc).1 (hp c hc).2
  · calc Finset.sum d.toFinset (fun c => -((d.count c : ℝ) / (d.length : ℝ)
            * Real.logb 2 ((d.count c : ℝ) / (d.length : ℝ))))
        ≤ Finset.sum d.toFinset (fun c => (d.count c : ℝ) / (d.length : ℝ) * Real.logb 2 10
            + (1 / 10 - (d.count c : ℝ) / (d.length : ℝ)) / Real.log 2) :=
          Finset.sum_le_sum (fun c hc => entropy_term_le _ (hp c hc).1)
      _ = Real.logb 2 10 + ((d.toFinset.card : ℝ) / 10 - 1) / Real.log 2 := by
          rw [Finset.sum_add_distrib, ← Finset.sum_mul, hsum, ← Finset.sum_div,
            Finset.sum_sub_distrib, hsum, Finset.sum_const, nsmul_eq_mul]
          ring
      _ ≤ Real.logb 2 10 := by
          have : ((d.toFinset.card : ℝ) / 10 - 1) / Real.log 2 ≤ 0 := by
            apply div_nonpos_of_nonpos_of_nonneg _ hlog2.le
            linarith
          linarith

theorem logb_two_ten_lt : Real.logb 2 10 < 3.5 := by
  have hlog2 : 0 < Real.log 2 := Real.log_pos (by norm_num)
  have h : Real.log 10 * 2 < Real.log 2 * 7 := by
    have h1 : Real.log ((10 : ℝ) ^ 2) < Real.log ((2 : ℝ) ^ 7) :=
      Real.log_lt_log (by norm_num) (by norm_num)
    rw [Real.log_pow, Real.log_pow] at h1
    push_cast at h1
    linarith
  unfold Real.logb
  rw [div_lt_iff₀ hlog2]
  norm_num
  linarith

theorem calculate_entropy_range (d : List Char) (hd : digit_string d) (hne : d ≠ []) :
    0 ≤ calculate_entropy d ∧ calculate_entropy d ≤ Real.logb 2 10 := by
  rw [calculate_entropy_eq_shannon d hd hne]
  exact shannon_entropy_bounds d hd hne

theorem entropy_below_threshold (d : List Char) (hd : digit_string d) :
    decide (calculate_entropy d ≥ ENTROPY_THRESHOLD) = false := by
  rw [decide_eq_false_iff_not, not_le]
  unfold ENTROPY_THRESHOLD
  by_cases hne : d = []
  · subst hne
    simp [calculate_entropy]
    norm_num
  · exact lt_of_le_of_lt (calculate_entropy_range d hd hne).2 logb_two_ten_lt

/-- C18: on every input `validate` returns `entropy_passed = false` and
`high_confidence = false`: the entropy it stores is at most `log2(10)`, which
is below `ENTROPY_THRESHOLD = 3.5`; so `main` never prints the plain
"Card number is VALID" verdict. -/
theorem validate_entropy_never_passes (input : List Char) (start stop : Int) :
    ∃ r, validate input start stop = some r
      ∧ r.entropy_passed = false ∧ r.high_confidence = false
      ∧ r.entropy ≤ Real.logb 2 10 ∧ Real.logb 2 10 < ENTROPY_THRESHOLD
      ∧ ENTROPY_THRESHOLD = 3.5
      ∧ main_verdict r ≠ "[RESULT] Card number is VALID\n".toList := by
  have hthr : Real.logb 2 10 < ENTROPY_THRESHOLD := by
    unfold ENTROPY_THRESHOLD; exact logb_two_ten_lt
  have hverdict : ∀ r : ValidationResult, r.high_confidence = false →
      main_verdict r ≠ "[RESULT] Card number is VALID\n".toList := by
    intro r hr
    unfold main_verdict
    rw [hr]
    cases r.valid <;> decide
  by_cases h : (normalize_input input).length < 13 ∨ (normalize_input input).length > 19
  · refine ⟨_, validate_out_of_range input start stop h, rfl, rfl, ?_, hthr, rfl,
      hverdict _ rfl⟩
    exact Real.logb_nonneg (by norm_num) (by norm_num)
  · obtain ⟨issuer, rep, hi, hr⟩ := stages_return input
    have hd := normalize_input_digit_string input
    have hne : normalize_input input ≠ [] := by
      intro h0
      rw [h0] at h
      simp at h
    have hb := entropy_below_threshold (normalize_input input) hd
    have hhc : (luhn_check (normalize_input input)
        && decide (calculate_entropy (normalize_input input) ≥ ENTROPY_THRESHOLD) && rep)
        = false := by
      rw [hb]; simp
    exact ⟨_, validate_in_range input start stop h issuer hi rep hr, hb, hhc,
      (calculate_entropy_range _ hd hne).2, hthr, rfl, hverdict _ hhc⟩

end cardguard
